import Mathlib

/-!
# Reliability calculator for radio-component schemes (`meow.cpp`)

A shallow embedding of the program's data model (`RadioComponent` and its five
subclasses, `HashTable`, `Scheme`) and of its operations, followed by theorems
about them.

Modelling conventions.

* The methods are embedded twice. Under their own names `double` values are exact
  rationals (`ℚ`) and no operation rounds. Under the names ending in `64` every
  operation rounds as IEEE 754 binary64 does (`fl64`).
* In exact arithmetic a `double` that is the result of a division is a `Val`
  (`Option ℚ`): `none` stands for a value that is not a real number, which in
  this program arises only from a zero divisor and then propagates.
* In double arithmetic a value is an `F64` (`Option ℚ`): a finite double, or
  `none` from the first result on that is not finite.
* `int` keys are `Int`; the conversion to `size_t` in `HashTable::insert` is
  the explicit reduction modulo `2 ^ 64`.
* Pointers to heap records are modelled by the records themselves; a chain of
  `Node`s is the list of its records, head first.
* Operations whose C++ behaviour is undefined (a modulo by a zero bucket count,
  an access outside the bucket array) return `none`.
* Text written to the standard output is modelled by the sequence of values
  printed, not by their formatting.
-/

namespace Meow

/-! ## Component records -/

/-- The dynamic class of a record together with the fields that class adds to
`RadioComponent`; `base` is a plain `RadioComponent`. -/
inductive Kind where
  | base
  | resistor (resistance tolerance : ℚ)
  | capacitor (capacity voltage : ℚ)
  | transistor (gain voltage : ℚ)
  | diode (ratedVoltage rating : ℚ)
  | inductor (inductance : ℚ)
deriving DecidableEq, Repr

/-- The fields of class `RadioComponent`, plus the subclass payload. -/
structure RadioComponent where
  MTBF : ℚ
  failureRate : ℚ
  reliability : ℚ
  failureTolerance : ℚ
  name : String
  nominalValue : ℚ
  kind : Kind
deriving DecidableEq, Repr

/-- Constructor `Resistor(mtbf, fr, rel, ft, name, value, r, t)`. -/
def Resistor (mtbf fr rel ft : ℚ) (name : String) (value r t : ℚ) : RadioComponent :=
  { MTBF := mtbf, failureRate := fr, reliability := rel, failureTolerance := ft,
    name := name, nominalValue := value, kind := Kind.resistor r t }

/-- Constructor `Capacitor(mtbf, fr, rel, ft, name, value, vol)`; `capacity` is
initialised from `value`. -/
def Capacitor (mtbf fr rel ft : ℚ) (name : String) (value vol : ℚ) : RadioComponent :=
  { MTBF := mtbf, failureRate := fr, reliability := rel, failureTolerance := ft,
    name := name, nominalValue := value, kind := Kind.capacitor value vol }

/-- Constructor `Transistor(mtbf, fr, rel, ft, name, value, g, vol)`. -/
def Transistor (mtbf fr rel ft : ℚ) (name : String) (value g vol : ℚ) : RadioComponent :=
  { MTBF := mtbf, failureRate := fr, reliability := rel, failureTolerance := ft,
    name := name, nominalValue := value, kind := Kind.transistor g vol }

/-- Constructor `Diode(mtbf, fr, rel, ft, name, value, vol, r)`. -/
def Diode (mtbf fr rel ft : ℚ) (name : String) (value vol r : ℚ) : RadioComponent :=
  { MTBF := mtbf, failureRate := fr, reliability := rel, failureTolerance := ft,
    name := name, nominalValue := value, kind := Kind.diode vol r }

/-- Constructor `Inductor(mtbf, fr, rel, ft, name, value, ind)`. -/
def Inductor (mtbf fr rel ft : ℚ) (name : String) (value ind : ℚ) : RadioComponent :=
  { MTBF := mtbf, failureRate := fr, reliability := rel, failureTolerance := ft,
    name := name, nominalValue := value, kind := Kind.inductor ind }

/-- What `getDetails` prints for a record: its name and its nominal value. No
subclass overrides it. -/
def RadioComponent.getDetails (c : RadioComponent) : String × ℚ :=
  (c.name, c.nominalValue)

/-! ## The hash table -/

/-- Conversion of an `int` to `size_t` (64 bits): reduction modulo `2 ^ 64`. -/
def toSizeT (key : Int) : Nat :=
  (key % (2 ^ 64 : Int)).toNat

/-- Class `HashTable`: the bucket array (each bucket is the chain hanging from
`table[i]`, head first) and the stored bucket count. -/
structure HashTable where
  table : List (List RadioComponent)
  size : Nat
deriving DecidableEq, Repr

/-- Constructor `HashTable(size_t s)`: `s` empty buckets. -/
def HashTable.new (s : Nat) : HashTable :=
  { table := List.replicate s [], size := s }

/-- The tables the constructor and `insert` produce: as many buckets as `size`
says, and at least one. -/
def HashTable.WF (h : HashTable) : Prop :=
  h.table.length = h.size ∧ 0 < h.size

/-- The expression `key % size` of `HashTable::insert`, evaluated on `size_t`. -/
def HashTable.index (h : HashTable) (key : Int) : Nat :=
  toSizeT key % h.size

/-- Method `HashTable::insert`: `index = key % size`, then the new node, whose
`next` is the old head, becomes the head of `table[index]`. The result is `none`
where the C++ is undefined: `size = 0`, or `index` outside the array. -/
def HashTable.insert (h : HashTable) (key : Int) (component : RadioComponent) :
    Option HashTable :=
  if h.size = 0 then none
  else
    match h.table[h.index key]? with
    | none => none
    | some chain => some { h with table := h.table.set (h.index key) (component :: chain) }

/-- A sequence of `insert` calls, in order; `none` as soon as one of them is. -/
def HashTable.insertAll : HashTable → List (Int × RadioComponent) → Option HashTable
  | h, [] => some h
  | h, (key, component) :: rest =>
    match h.insert key component with
    | none => none
    | some h1 => h1.insertAll rest

/-- The records reached by the two nested loops of `HashTable::output`: buckets
`0, 1, ..., size - 1` in turn, each chain from its head. An index outside the
array, which no table made by the constructor and `insert` has, adds nothing. -/
def HashTable.visited (h : HashTable) : List RadioComponent :=
  (List.range h.size).flatMap (fun i => h.table.getD i [])

/-- Method `HashTable::output`: `getDetails` on every visited record. -/
def HashTable.output (h : HashTable) : List (String × ℚ) :=
  h.visited.map RadioComponent.getDetails

/-! ## The scheme -/

/-- Class `Scheme`. -/
structure Scheme where
  name : String
  componentTable : HashTable
  components : List RadioComponent
deriving DecidableEq, Repr

/-- Constructor `Scheme(schemeName, hashTableSize)`. -/
def Scheme.new (schemeName : String) (hashTableSize : Nat) : Scheme :=
  { name := schemeName, componentTable := HashTable.new hashTableSize, components := [] }

/-- Method `Scheme::addComponent`: insert into the table, then `push_back` on the
vector. -/
def Scheme.addComponent (s : Scheme) (key : Int) (component : RadioComponent) :
    Option Scheme :=
  match s.componentTable.insert key component with
  | none => none
  | some t => some { s with componentTable := t, components := s.components ++ [component] }

/-- Method `Scheme::calculateReliabilitySequential`: the accumulation loop
starting from `0.0`. -/
def Scheme.calculateReliabilitySequential (s : Scheme) : ℚ :=
  s.components.foldl (fun totalFailureRate component => totalFailureRate + component.failureRate) 0

/-- Method `Scheme::calculateReliabilityParallel`: the accumulation loop starting
from `1.0`, then `1 - totalReliability`. -/
def Scheme.calculateReliabilityParallel (s : Scheme) : ℚ :=
  1 - s.components.foldl
    (fun totalReliability component => totalReliability * (1 - component.failureRate)) 1

/-- A sequence of `addComponent` calls, in order; `none` as soon as one of them
is. -/
def Scheme.addAll : Scheme → List (Int × RadioComponent) → Option Scheme
  | s, [] => some s
  | s, (key, component) :: rest =>
    match s.addComponent key component with
    | none => none
    | some s1 => s1.addAll rest

/-- Method `Scheme::displayComponents`: the scheme's name, then the table's
output. -/
def Scheme.displayComponents (s : Scheme) : String × List (String × ℚ) :=
  (s.name, s.componentTable.output)

/-- Method `Scheme::displayConnectionScheme`: name and nominal value of every
component of the vector, in vector order. -/
def Scheme.displayConnectionScheme (s : Scheme) : List (String × ℚ) :=
  s.components.map (fun component => (component.name, component.nominalValue))

/-! ## Reliability figures -/

/-- A `double` that may have gone through a division: `none` when it is not a real
number. -/
abbrev Val := Option ℚ

/-- Division of two `double`s: not a real number when the divisor is zero or an
operand is not a real number. -/
def Val.div : Val → Val → Val
  | some x, some y => if y = 0 then none else some (x / y)
  | _, _ => none

/-- Subtraction of two `double`s. -/
def Val.sub : Val → Val → Val
  | some x, some y => some (x - y)
  | _, _ => none

/-- Multiplication of two `double`s. -/
def Val.mul : Val → Val → Val
  | some x, some y => some (x * y)
  | _, _ => none

/-- The lines `calculateAndDisplayReliability` writes, each with the value it
prints. -/
inductive Line where
  | prompt
  | sequentialReliability (reliability : Val)
  | parallelReliability (reliability : Val)
  | invalidChoice
  | failureProbability (v : Val)
  | densityOfFailure (v : Val)
  | intensityOfFailure (v : Val)
  | averageMTBF (v : Val)
  | gammaPercentMTBF (v : Val)
deriving DecidableEq, Repr

/-- The loop of `calculateAndDisplayReliability` that adds up `MTBF`. -/
def Scheme.totalMTBF (s : Scheme) : ℚ :=
  s.components.foldl (fun totalMTBF component => totalMTBF + component.MTBF) 0

/-- The part of `calculateAndDisplayReliability` after the choice of topology:
the five derived figures, in the order they are printed. -/
def Scheme.derivedMetrics (s : Scheme) (reliability : Val) : List Line :=
  let failureProbability := Val.sub (some 1) reliability
  let densityOfFailure := Val.div failureProbability reliability
  let intensityOfFailure := s.calculateReliabilitySequential
  let totalMTBF := s.totalMTBF
  let averageMTBF := Val.div (some totalMTBF) (some (s.components.length : ℚ))
  let gammaPercentMTBF := Val.mul (some totalMTBF) reliability
  [Line.failureProbability failureProbability,
   Line.densityOfFailure densityOfFailure,
   Line.intensityOfFailure (some intensityOfFailure),
   Line.averageMTBF averageMTBF,
   Line.gammaPercentMTBF gammaPercentMTBF]

/-- Method `Scheme::calculateAndDisplayReliability`, on the `connectionType` read
from the input: the scheme afterwards and the lines written. -/
def Scheme.calculateAndDisplayReliability (s : Scheme) (connectionType : Int) :
    Scheme × List Line :=
  if connectionType = 1 then
    let reliability := Val.div (some 1) (some s.calculateReliabilitySequential)
    (s, [Line.prompt, Line.sequentialReliability reliability] ++ s.derivedMetrics reliability)
  else if connectionType = 2 then
    let reliability : Val := some s.calculateReliabilityParallel
    (s, [Line.prompt, Line.parallelReliability reliability] ++ s.derivedMetrics reliability)
  else
    (s, [Line.prompt, Line.invalidChoice])

/-! ## Input of components -/

/-- What the user supplies for one iteration of the input loop: the kind selector,
the five shared figures, and the answers `x`, `y` to the kind-specific prompts
(`y` is not asked for by the kinds that prompt once, neither by an unknown
selector). -/
structure Entry where
  componentType : String
  mtbf : ℚ
  fr : ℚ
  rel : ℚ
  ft : ℚ
  value : ℚ
  x : ℚ
  y : ℚ
deriving DecidableEq, Repr

/-- The `if`/`else if` chain of `inputComponent` on `componentType`: the record
built, or `none` in the final `else` branch. -/
def Entry.makeComponent (e : Entry) : Option RadioComponent :=
  if e.componentType = "1" then
    some (Resistor e.mtbf e.fr e.rel e.ft "Резистор" e.value e.x e.y)
  else if e.componentType = "2" then
    some (Capacitor e.mtbf e.fr e.rel e.ft "Конденсатор" e.value e.x)
  else if e.componentType = "3" then
    some (Transistor e.mtbf e.fr e.rel e.ft "Транзистор" e.value e.x e.y)
  else if e.componentType = "4" then
    some (Diode e.mtbf e.fr e.rel e.ft "Диод" e.value e.x e.y)
  else if e.componentType = "5" then
    some (Inductor e.mtbf e.fr e.rel e.ft "Катушка" e.value e.x)
  else
    none

/-- The loop of `inputComponent` from index `i` on, over the entries still to be
read: an unknown selector continues with `i + 1`, otherwise the record is added
with key `i + 1`. -/
def Scheme.inputLoop : Scheme → Nat → List Entry → Option Scheme
  | s, _, [] => some s
  | s, i, e :: rest =>
    match e.makeComponent with
    | none => s.inputLoop (i + 1) rest
    | some component =>
      match s.addComponent ((i : Int) + 1) component with
      | none => none
      | some s1 => s1.inputLoop (i + 1) rest

/-- Method `Scheme::inputComponent` on the count read first and the entries that
follow it. Only the first `componentCount` entries are read; an iteration that
finds the input exhausted reads an empty selector and changes nothing. -/
def Scheme.inputComponent (s : Scheme) (componentCount : Int) (entries : List Entry) :
    Option Scheme :=
  s.inputLoop 0 (entries.take componentCount.toNat)

/-- The `addComponent` calls the loop of `inputComponent` makes from index `i` on:
key and record, in order. -/
def keyedRecords : Nat → List Entry → List (Int × RadioComponent)
  | _, [] => []
  | i, e :: rest =>
    match e.makeComponent with
    | none => keyedRecords (i + 1) rest
    | some component => ((i : Int) + 1, component) :: keyedRecords (i + 1) rest

/-- A recognised kind selector, in the words of the specification: one of "1",
"2", "3", "4", "5". -/
def recognised (selector : String) : Bool :=
  selector = "1" || selector = "2" || selector = "3" || selector = "4" || selector = "5"

/-- The selector that stands for a kind of record in the input prompt
(1 resistor, 2 capacitor, 3 transistor, 4 diode, 5 inductor); a plain
`RadioComponent` has none. -/
def Kind.selector : Kind → Option String
  | Kind.base => none
  | Kind.resistor _ _ => some "1"
  | Kind.capacitor _ _ => some "2"
  | Kind.transistor _ _ => some "3"
  | Kind.diode _ _ => some "4"
  | Kind.inductor _ => some "5"

/-- The divisors of the divisions `calculateAndDisplayReliability` performs, in
the order it performs them: for choice 1 the sum in `1.0 / sum`, then
`reliability` in `failureProbability / reliability`, then `components.size()`;
for choice 2 `reliability`, then `components.size()`; none for another choice. -/
def Scheme.divisors (s : Scheme) (connectionType : Int) : List Val :=
  if connectionType = 1 then
    [some s.calculateReliabilitySequential,
     Val.div (some 1) (some s.calculateReliabilitySequential),
     some (s.components.length : ℚ)]
  else if connectionType = 2 then
    [some s.calculateReliabilityParallel, some (s.components.length : ℚ)]
  else
    []

/-- Records paired with the keys `i + 1`, `i + 2`, ... in order: the calls
`addComponent(i + 1, component)` of a loop that skips nothing. -/
def withKeys : Nat → List RadioComponent → List (Int × RadioComponent)
  | _, [] => []
  | i, r :: rest => ((i : Int) + 1, r) :: withKeys (i + 1) rest

/-! ## Double arithmetic

The definitions above take `double` operations as exact. The ones below round as
IEEE 754 binary64 does, to the nearest representable value, ties to the even
significand. A value of type `F64` is a finite double, or `none` once a result is
not finite (overflow, a zero divisor, or an operand that already was not finite);
what the program prints after that point is not followed. Zero has no sign. -/

/-- Rounding of a rational to the nearest integer, a tie going to the even one. -/
def rne (x : ℚ) : ℤ :=
  if x - ⌊x⌋ < 1 / 2 then ⌊x⌋
  else if 1 / 2 < x - ⌊x⌋ then ⌊x⌋ + 1
  else if ⌊x⌋ % 2 = 0 then ⌊x⌋ else ⌊x⌋ + 1

/-- The position of the highest set bit of `n`, found by halving at most `fuel`
times: `⌊log₂ n⌋` as soon as `n ≤ fuel`. -/
def log2Fuel : Nat → Nat → Nat
  | 0, _ => 0
  | fuel + 1, n => if 2 ≤ n then log2Fuel fuel (n / 2) + 1 else 0

/-- The integer `e` with `2 ^ e ≤ |x| < 2 ^ (e + 1)`, for `x` not 0, from the bit
lengths of numerator and denominator. -/
def ilog2 (x : ℚ) : ℤ :=
  if x.den * 2 ^ log2Fuel x.num.natAbs x.num.natAbs
      ≤ x.num.natAbs * 2 ^ log2Fuel x.den x.den then
    (log2Fuel x.num.natAbs x.num.natAbs : ℤ) - (log2Fuel x.den x.den : ℤ)
  else (log2Fuel x.num.natAbs x.num.natAbs : ℤ) - (log2Fuel x.den x.den : ℤ) - 1

/-- The spacing of the doubles around `x`: 53 significant bits, the exponent not
below -1022, where the subnormal doubles begin. -/
def ulp (x : ℚ) : ℚ :=
  2 ^ (max (ilog2 x) (-1022) - 52)

/-- The double nearest to `x ≥ 0`, the exponent range taken as unbounded above. -/
def roundPos (x : ℚ) : ℚ :=
  (rne (x / ulp x) : ℚ) * ulp x

/-- The double nearest to `x`, the exponent range taken as unbounded above. -/
def round64 (x : ℚ) : ℚ :=
  if 0 ≤ x then roundPos x else -roundPos (-x)

/-- Rounding to `double`: `none` when the rounded value does not fit, that is when
its magnitude reaches `2 ^ 1024`. -/
def fl64 (x : ℚ) : Option ℚ :=
  if |round64 x| < 2 ^ 1024 then some (round64 x) else none

/-- A finite `double`, or `none`. -/
abbrev F64 := Option ℚ

/-- Addition of two `double`s. -/
def F64.add : F64 → F64 → F64
  | some x, some y => fl64 (x + y)
  | _, _ => none

/-- Subtraction of two `double`s. -/
def F64.sub : F64 → F64 → F64
  | some x, some y => fl64 (x - y)
  | _, _ => none

/-- Multiplication of two `double`s. -/
def F64.mul : F64 → F64 → F64
  | some x, some y => fl64 (x * y)
  | _, _ => none

/-- Division of two `double`s. -/
def F64.div : F64 → F64 → F64
  | some x, some y => if y = 0 then none else fl64 (x / y)
  | _, _ => none

/-- Method `Scheme::calculateReliabilitySequential` in double arithmetic; a field
of a record holds the double nearest to the value entered. -/
def Scheme.calculateReliabilitySequential64 (s : Scheme) : F64 :=
  s.components.foldl
    (fun totalFailureRate component => F64.add totalFailureRate (fl64 component.failureRate))
    (some 0)

/-- Method `Scheme::calculateReliabilityParallel` in double arithmetic. -/
def Scheme.calculateReliabilityParallel64 (s : Scheme) : F64 :=
  F64.sub (some 1) (s.components.foldl
    (fun totalReliability component =>
      F64.mul totalReliability (F64.sub (some 1) (fl64 component.failureRate)))
    (some 1))

/-- The loop of `calculateAndDisplayReliability` that adds up `MTBF`, in double
arithmetic. -/
def Scheme.totalMTBF64 (s : Scheme) : F64 :=
  s.components.foldl (fun totalMTBF component => F64.add totalMTBF (fl64 component.MTBF))
    (some 0)

/-- The part of `calculateAndDisplayReliability` after the choice of topology, in
double arithmetic. -/
def Scheme.derivedMetrics64 (s : Scheme) (reliability : F64) : List Line :=
  let failureProbability := F64.sub (some 1) reliability
  let densityOfFailure := F64.div failureProbability reliability
  let intensityOfFailure := s.calculateReliabilitySequential64
  let totalMTBF := s.totalMTBF64
  let averageMTBF := F64.div totalMTBF (fl64 (s.components.length : ℚ))
  let gammaPercentMTBF := F64.mul totalMTBF reliability
  [Line.failureProbability failureProbability,
   Line.densityOfFailure densityOfFailure,
   Line.intensityOfFailure intensityOfFailure,
   Line.averageMTBF averageMTBF,
   Line.gammaPercentMTBF gammaPercentMTBF]

/-- Method `Scheme::calculateAndDisplayReliability` in double arithmetic. -/
def Scheme.calculateAndDisplayReliability64 (s : Scheme) (connectionType : Int) :
    Scheme × List Line :=
  if connectionType = 1 then
    let reliability := F64.div (some 1) s.calculateReliabilitySequential64
    (s, [Line.prompt, Line.sequentialReliability reliability]
          ++ s.derivedMetrics64 reliability)
  else if connectionType = 2 then
    let reliability := s.calculateReliabilityParallel64
    (s, [Line.prompt, Line.parallelReliability reliability]
          ++ s.derivedMetrics64 reliability)
  else
    (s, [Line.prompt, Line.invalidChoice])

/-- The scheme `main` creates. -/
def myScheme : Scheme :=
  Scheme.new "Моя электронная схема" 10

/-! ## Sample data -/

/-- A resistor with failure rate 1/10. -/
def sampleR1 : RadioComponent :=
  Resistor 100 (1 / 10) (9 / 10) (1 / 100) "Резистор" 220 220 5

/-- A resistor with failure rate 2/10. -/
def sampleR2 : RadioComponent :=
  Resistor 300 (2 / 10) (8 / 10) (1 / 100) "Резистор" 470 470 5

/-- A capacitor with failure rate 0. -/
def sampleC3 : RadioComponent :=
  Capacitor 500 0 1 (1 / 100) "Конденсатор" 47 16

/-- Three inserts, the first two of which meet in bucket 1 of a table of 10. -/
def sampleInserts : List (Int × RadioComponent) :=
  [(1, sampleR1), (11, sampleR2), (2, sampleC3)]

/-- The scheme of `main` holding the two sample resistors under keys 1 and 2. -/
def sampleScheme : Scheme :=
  { name := "Моя электронная схема",
    componentTable := { table := [[], [sampleR1], [sampleR2], [], [], [], [], [], [], []],
                        size := 10 },
    components := [sampleR1, sampleR2] }

/-- An entry with the unknown selector "9". -/
def sampleEntry9 : Entry :=
  { componentType := "9", mtbf := 100, fr := 1 / 10, rel := 9 / 10, ft := 1 / 100,
    value := 220, x := 0, y := 0 }

/-- A resistor entry followed by an entry with an unknown selector. -/
def sampleEntries : List Entry :=
  [{ componentType := "1", mtbf := 100, fr := 1 / 10, rel := 9 / 10, ft := 1 / 100,
     value := 220, x := 220, y := 5 },
   sampleEntry9]

/-- A resistor entry. -/
def sampleEntry1 : Entry :=
  { componentType := "1", mtbf := 100, fr := 1 / 10, rel := 9 / 10, ft := 1 / 100,
    value := 220, x := 220, y := 5 }

/-- An entry with an unknown selector followed by a resistor entry. -/
def sampleEntriesSkip : List Entry :=
  [sampleEntry9, sampleEntry1]

/-- The scheme of `main` holding only the sample capacitor, whose failure rate is
0, under key 1. -/
def sampleZeroScheme : Scheme :=
  { name := "Моя электронная схема",
    componentTable := { table := [[], [sampleC3], [], [], [], [], [], [], [], []],
                        size := 10 },
    components := [sampleC3] }

/-- The scheme of `main` holding only the first sample resistor, whose failure
rate is entered as 0.1. -/
def sampleTenth : Scheme :=
  { name := "Моя электронная схема",
    componentTable := { table := [[], [sampleR1], [], [], [], [], [], [], [], []],
                        size := 10 },
    components := [sampleR1] }

/-- A resistor with failure rate 3. -/
def sampleR3 : RadioComponent :=
  Resistor 100 3 (9 / 10) (1 / 100) "Резистор" 220 220 5

/-- The scheme of `main` holding only the resistor with failure rate 3. -/
def sampleThree : Scheme :=
  { name := "Моя электронная схема",
    componentTable := { table := [[], [sampleR3], [], [], [], [], [], [], [], []],
                        size := 10 },
    components := [sampleR3] }

/-! ## Helper lemmas: the accumulation loops -/

theorem foldl_add_failureRate (cs : List RadioComponent) (a : ℚ) :
    cs.foldl (fun t c => t + c.failureRate) a = a + (cs.map (fun c => c.failureRate)).sum := by
  induction cs generalizing a with
  | nil => simp
  | cons c cs ih => simp [List.foldl_cons, ih, add_assoc]

theorem foldl_mul_failureRate (cs : List RadioComponent) (a : ℚ) :
    cs.foldl (fun t c => t * (1 - c.failureRate)) a
      = a * (cs.map (fun c => 1 - c.failureRate)).prod := by
  induction cs generalizing a with
  | nil => simp
  | cons c cs ih => simp [List.foldl_cons, ih, mul_assoc]

theorem sequential_eq_sum (s : Scheme) :
    s.calculateReliabilitySequential = (s.components.map (fun c => c.failureRate)).sum := by
  simp [Scheme.calculateReliabilitySequential, foldl_add_failureRate]

theorem parallel_eq_prod (s : Scheme) :
    s.calculateReliabilityParallel
      = 1 - (s.components.map (fun c => 1 - c.failureRate)).prod := by
  simp [Scheme.calculateReliabilityParallel, foldl_mul_failureRate]

theorem prod_mem_unit (l : List ℚ) (h : ∀ x ∈ l, 0 ≤ x ∧ x ≤ 1) :
    0 ≤ l.prod ∧ l.prod ≤ 1 := by
  induction l with
  | nil => simp
  | cons x l ih =>
    have hx := h x (List.mem_cons_self x l)
    have hl := ih (fun y hy => h y (List.mem_cons_of_mem x hy))
    rw [List.prod_cons]
    exact ⟨mul_nonneg hx.1 hl.1, mul_le_one₀ hx.2 hl.1 hl.2⟩

/-! ## Helper lemmas: the hash table -/

theorem HashTable.new_wf (B : Nat) (hB : 0 < B) : (HashTable.new B).WF := by
  simp [HashTable.new, HashTable.WF, hB]

theorem HashTable.new_chain (B b : Nat) : (HashTable.new B).table.getD b [] = [] := by
  simp only [HashTable.new, List.getD_eq_getElem?_getD, List.getElem?_replicate]
  split <;> rfl

theorem toSizeT_of_nonneg (key : Int) (h0 : 0 ≤ key) (h1 : key < 2 ^ 31) :
    toSizeT key = key.toNat := by
  unfold toSizeT
  rw [Int.emod_eq_of_lt h0 (by omega)]

theorem HashTable.index_lt (h : HashTable) (hpos : 0 < h.size) (key : Int) :
    h.index key < h.size :=
  Nat.mod_lt _ hpos

theorem HashTable.index_of_nonneg (h : HashTable) (key : Int) (h0 : 0 ≤ key)
    (h1 : key < 2 ^ 31) : ((h.index key : Nat) : Int) = key % (h.size : Int) := by
  unfold HashTable.index
  rw [toSizeT_of_nonneg key h0 h1, Int.natCast_mod, Int.toNat_of_nonneg h0]

theorem HashTable.insert_eq (h : HashTable) (hwf : h.WF) (key : Int) (c : RadioComponent) :
    h.insert key c
      = some { table := h.table.set (h.index key) (c :: h.table.getD (h.index key) []),
               size := h.size } := by
  have hlt : h.index key < h.table.length := by
    rw [hwf.1]; exact h.index_lt hwf.2 key
  have hne : h.size ≠ 0 := Nat.pos_iff_ne_zero.mp hwf.2
  simp [HashTable.insert, hne, List.getElem?_eq_getElem hlt, List.getD_eq_getElem?_getD]

theorem HashTable.insert_wf (h h1 : HashTable) (hwf : h.WF) (key : Int) (c : RadioComponent)
    (hins : h.insert key c = some h1) : h1.WF ∧ h1.size = h.size := by
  rw [h.insert_eq hwf] at hins
  cases Option.some.inj hins
  exact ⟨⟨by simpa using hwf.1, hwf.2⟩, rfl⟩

theorem HashTable.insert_chain (h h1 : HashTable) (hwf : h.WF) (key : Int)
    (c : RadioComponent) (hins : h.insert key c = some h1) (b : Nat) :
    h1.table.getD b [] = if h.index key = b then c :: h.table.getD b [] else h.table.getD b [] := by
  have hlt : h.index key < h.table.length := by
    rw [hwf.1]; exact h.index_lt hwf.2 key
  rw [h.insert_eq hwf] at hins
  cases Option.some.inj hins
  simp only [List.getD_eq_getElem?_getD, List.getElem?_set]
  by_cases hb : h.index key = b
  · subst hb
    simp [hlt]
  · simp [hb]

theorem flatMap_update_of_not_mem (f : Nat → List RadioComponent) (idx : Nat)
    (c : RadioComponent) (l : List Nat) (hl : idx ∉ l) :
    l.flatMap (fun b => if idx = b then c :: f b else f b) = l.flatMap f := by
  induction l with
  | nil => rfl
  | cons a l ih =>
    have ha : idx ≠ a := fun e => hl (e ▸ List.mem_cons_self _ _)
    have hl1 : idx ∉ l := fun e => hl (List.mem_cons_of_mem _ e)
    simp [List.flatMap_cons, ha, ih hl1]

theorem flatMap_update_perm (f : Nat → List RadioComponent) (idx : Nat)
    (c : RadioComponent) (l : List Nat) (hnd : l.Nodup) (hl : idx ∈ l) :
    (l.flatMap (fun b => if idx = b then c :: f b else f b)).Perm (c :: l.flatMap f) := by
  induction l with
  | nil => cases hl
  | cons a l ih =>
    have hnd1 := List.nodup_cons.mp hnd
    by_cases ha : idx = a
    · subst ha
      simp [List.flatMap_cons, flatMap_update_of_not_mem f idx c l hnd1.1]
    · have hl1 : idx ∈ l := by
        rcases List.mem_cons.mp hl with e | e
        · exact absurd e ha
        · exact e
      have h1 := ih hnd1.2 hl1
      simp only [List.flatMap_cons, ha, if_false]
      exact (List.Perm.append_left (f a) h1).trans List.perm_middle

theorem HashTable.insert_visited (h h1 : HashTable) (hwf : h.WF) (key : Int)
    (c : RadioComponent) (hins : h.insert key c = some h1) :
    h1.visited.Perm (c :: h.visited) := by
  have hsz := (h.insert_wf h1 hwf key c hins).2
  have hch : (fun i => h1.table.getD i [])
      = (fun b => if h.index key = b then c :: h.table.getD b [] else h.table.getD b []) :=
    funext (h.insert_chain h1 hwf key c hins)
  unfold HashTable.visited
  rw [hsz, hch]
  exact flatMap_update_perm _ _ c _ (List.nodup_range _)
    (List.mem_range.mpr (h.index_lt hwf.2 key))

/-- What a sequence of inserts into a well-formed table leaves: every chain is the
records sent to that bucket, latest first, in front of what the chain held. -/
theorem HashTable.insertAll_spec (ins : List (Int × RadioComponent)) :
    ∀ h : HashTable, h.WF → ∃ h1, h.insertAll ins = some h1 ∧ h1.WF ∧ h1.size = h.size
      ∧ (∀ b, h1.table.getD b []
          = ((ins.filter (fun p => h.index p.1 = b)).map Prod.snd).reverse ++ h.table.getD b [])
      ∧ h1.visited.Perm (h.visited ++ ins.map Prod.snd) := by
  induction ins with
  | nil => intro h hwf; exact ⟨h, rfl, hwf, rfl, by simp, by simp⟩
  | cons p rest ih =>
    intro h hwf
    obtain ⟨key, c⟩ := p
    have hins := h.insert_eq hwf key c
    obtain ⟨hwf1, hsz1⟩ := h.insert_wf _ hwf key c hins
    obtain ⟨h2, hall, hwf2, hsz2, hch2, hperm2⟩ := ih _ hwf1
    refine ⟨h2, ?_, hwf2, hsz2.trans hsz1, ?_, ?_⟩
    · simp only [HashTable.insertAll, hins]
      exact hall
    · intro b
      have hidx : ∀ k : Int, HashTable.index
          { table := h.table.set (h.index key) (c :: h.table.getD (h.index key) []),
            size := h.size } k = h.index k := fun _ => rfl
      rw [hch2 b, h.insert_chain _ hwf key c hins b]
      simp only [hidx, List.filter_cons]
      by_cases hb : h.index key = b
      · simp [hb]
      · simp [hb]
    · refine hperm2.trans ?_
      have h3 := h.insert_visited _ hwf key c hins
      refine (List.Perm.append_right _ h3).trans ?_
      simp only [List.map_cons, List.cons_append]
      exact List.perm_middle.symm

theorem HashTable.visited_eq_of_chains (h : HashTable) (g : Nat → List RadioComponent)
    (hg : ∀ b, h.table.getD b [] = g b) : h.visited = (List.range h.size).flatMap g := by
  unfold HashTable.visited
  rw [funext hg]

theorem Scheme.addAll_spec (ins : List (Int × RadioComponent)) :
    ∀ s : Scheme, s.componentTable.WF → ∃ h1, s.componentTable.insertAll ins = some h1
      ∧ s.addAll ins = some { name := s.name, componentTable := h1,
                              components := s.components ++ ins.map Prod.snd } := by
  induction ins with
  | nil => intro s _; exact ⟨s.componentTable, rfl, by simp [Scheme.addAll]⟩
  | cons p rest ih =>
    intro s hwf
    obtain ⟨key, c⟩ := p
    have hins := s.componentTable.insert_eq hwf key c
    obtain ⟨hwf1, -⟩ := s.componentTable.insert_wf _ hwf key c hins
    have hadd : s.addComponent key c = some { s with
        componentTable :=
          { table := s.componentTable.table.set (s.componentTable.index key)
              (c :: s.componentTable.table.getD (s.componentTable.index key) []),
            size := s.componentTable.size },
        components := s.components ++ [c] } := by
      simp only [Scheme.addComponent, hins]
    obtain ⟨h1, hall, hs⟩ := ih { s with
        componentTable :=
          { table := s.componentTable.table.set (s.componentTable.index key)
              (c :: s.componentTable.table.getD (s.componentTable.index key) []),
            size := s.componentTable.size },
        components := s.components ++ [c] } hwf1
    refine ⟨h1, ?_, ?_⟩
    · simp only [HashTable.insertAll, hins]
      exact hall
    · simp only [Scheme.addAll, hadd]
      rw [hs]
      simp

theorem filter_bucket_congr (B : Nat) (b : Nat) (ins : List (Int × RadioComponent))
    (hk : ∀ p ∈ ins, 0 ≤ p.1 ∧ p.1 < 2 ^ 31) :
    ins.filter (fun p => decide ((HashTable.new B).index p.1 = b))
      = ins.filter (fun p => decide (p.1 % (B : Int) = (b : Int))) := by
  apply List.filter_congr
  intro p hp
  have h := (HashTable.new B).index_of_nonneg p.1 (hk p hp).1 (hk p hp).2
  have hsz : (HashTable.new B).size = B := rfl
  rw [hsz] at h
  rw [← h]
  simp

/-- The state of a fresh scheme after a sequence of `addComponent` calls. -/
theorem store_invariant_aux (schemeName : String) (B : Nat) (hB : 0 < B)
    (ins : List (Int × RadioComponent)) :
    ∃ s, (Scheme.new schemeName B).addAll ins = some s
      ∧ s.components = ins.map Prod.snd
      ∧ (∀ b, s.componentTable.table.getD b []
          = ((ins.filter (fun p => decide (s.componentTable.index p.1 = b))).map Prod.snd).reverse)
      ∧ s.componentTable.visited.Perm s.components
      ∧ (∀ k : Int, s.componentTable.index k = (HashTable.new B).index k) := by
  obtain ⟨h, hall, hs⟩ :=
    Scheme.addAll_spec ins (Scheme.new schemeName B) (HashTable.new_wf B hB)
  obtain ⟨h', hall', -, hsz, hch, hperm⟩ :=
    HashTable.insertAll_spec ins (HashTable.new B) (HashTable.new_wf B hB)
  have hcomp : (Scheme.new schemeName B).componentTable = HashTable.new B := rfl
  rw [hcomp] at hall
  rw [hall'] at hall
  cases Option.some.inj hall
  have hsz1 : h.size = B := hsz
  have hidx : ∀ k : Int, h.index k = (HashTable.new B).index k := by
    intro k
    simp only [HashTable.index, hsz1]
    rfl
  have hch1 : ∀ b, h.table.getD b []
      = ((ins.filter (fun p => decide (h.index p.1 = b))).map Prod.snd).reverse := by
    intro b
    rw [hch b, HashTable.new_chain, List.append_nil]
    simp only [hidx]
  have hperm1 : h.visited.Perm (ins.map Prod.snd) := by
    have hv0 : (HashTable.new B).visited = [] := by
      rw [(HashTable.new B).visited_eq_of_chains (fun _ => []) (HashTable.new_chain B)]
      simp
    simpa [hv0] using hperm
  exact ⟨_, hs, by simp [Scheme.new], hch1, by simpa [Scheme.new] using hperm1, hidx⟩

theorem toSizeT_of_neg (key : Int) (h0 : key < 0) (h1 : -2 ^ 31 ≤ key) :
    ((toSizeT key : Nat) : Int) = key + 2 ^ 64 := by
  unfold toSizeT
  have hm : key % (2 ^ 64 : Int) = key + 2 ^ 64 := by omega
  rw [hm, Int.toNat_of_nonneg (by omega)]

theorem toSizeT_cast (key : Int) (hlo : -2 ^ 31 ≤ key) (hhi : key < 2 ^ 31) :
    ((toSizeT key : Nat) : Int) = if 0 ≤ key then key else key + 2 ^ 64 := by
  by_cases h0 : 0 ≤ key
  · rw [if_pos h0, toSizeT_of_nonneg key h0 hhi, Int.toNat_of_nonneg h0]
  · rw [if_neg h0, toSizeT_of_neg key (by omega) hlo]

theorem HashTable.insert_length (h h1 : HashTable) (hwf : h.WF) (key : Int)
    (c : RadioComponent) (hins : h.insert key c = some h1) :
    h1.table.length = h.table.length := by
  rw [h.insert_eq hwf] at hins
  cases Option.some.inj hins
  simp

/-! ## Helper lemmas: keys in increasing order -/

theorem toSizeT_natCast (n : Nat) (h : n < 2 ^ 31) : toSizeT (n : Int) = n := by
  rw [toSizeT_of_nonneg (n : Int) (Int.natCast_nonneg n) (by exact_mod_cast h)]
  exact Int.toNat_natCast n

theorem flatMap_update_append (f : Nat → List RadioComponent) (c : RadioComponent) :
    ∀ (B idx : Nat), idx < B → (∀ b, idx ≤ b → f b = []) →
      (List.range B).flatMap (fun b => if idx = b then c :: f b else f b)
        = (List.range B).flatMap f ++ [c] := by
  intro B
  induction B with
  | zero => intro idx h; omega
  | succ B ih =>
    intro idx hlt hf
    rw [List.range_succ, List.flatMap_append, List.flatMap_append]
    by_cases hidx : idx = B
    · subst hidx
      rw [flatMap_update_of_not_mem f idx c (List.range idx) (by simp)]
      simp [hf idx (le_refl _)]
    · have hlt1 : idx < B := by omega
      rw [ih idx hlt1 hf]
      simp [hidx, hf B (by omega)]

theorem flatMap_update_cons_zero (f : Nat → List RadioComponent) (c : RadioComponent)
    (B : Nat) (hB : 0 < B) :
    (List.range B).flatMap (fun b => if 0 = b then c :: f b else f b)
      = c :: (List.range B).flatMap f := by
  obtain ⟨n, rfl⟩ : ∃ n, B = n + 1 := ⟨B - 1, by omega⟩
  rw [List.range_succ_eq_map, List.flatMap_cons, List.flatMap_cons,
    flatMap_update_of_not_mem f 0 c _ (by simp)]
  simp

theorem withKeys_snd (rs : List RadioComponent) :
    ∀ n : Nat, (withKeys n rs).map Prod.snd = rs := by
  induction rs with
  | nil => intro n; rfl
  | cons r rest ih => intro n; simp [withKeys, ih]

theorem withKeys_append (rs : List RadioComponent) (r : RadioComponent) :
    ∀ n : Nat, withKeys n (rs ++ [r])
      = withKeys n rs ++ [((((n + rs.length : Nat) : Int)) + 1, r)] := by
  induction rs with
  | nil => intro n; simp [withKeys]
  | cons a rest ih =>
    intro n
    have hlen : n + 1 + rest.length = n + (rest.length + 1) := by omega
    have hstep := ih (n + 1)
    rw [hlen] at hstep
    show ((n : Int) + 1, a) :: withKeys (n + 1) (rest ++ [r])
      = ((n : Int) + 1, a) :: withKeys (n + 1) rest
          ++ [(((n + (a :: rest).length : Nat) : Int) + 1, r)]
    rw [hstep]
    rfl

theorem HashTable.insertAll_append (a b : List (Int × RadioComponent)) :
    ∀ h : HashTable, h.insertAll (a ++ b) = (h.insertAll a).bind (fun h1 => h1.insertAll b) := by
  induction a with
  | nil => intro h; rfl
  | cons p rest ih =>
    intro h
    obtain ⟨key, c⟩ := p
    simp only [List.cons_append, HashTable.insertAll]
    cases h.insert key c with
    | none => rfl
    | some h1 => exact ih h1

/-- Inserting records under the keys `n + 1`, `n + 2`, ..., all below the bucket
count, into a table whose buckets above `n` are empty appends them to what
`output` visits. -/
theorem HashTable.insertAll_withKeys (rs : List RadioComponent) :
    ∀ (n : Nat) (h : HashTable), h.WF → n + rs.length < h.size → n + rs.length < 2 ^ 31 →
      (∀ b, n < b → h.table.getD b [] = []) →
      ∃ h1, h.insertAll (withKeys n rs) = some h1 ∧ h1.WF ∧ h1.size = h.size
        ∧ h1.visited = h.visited ++ rs := by
  induction rs with
  | nil => intro n h hwf _ _ _; exact ⟨h, rfl, hwf, rfl, by simp⟩
  | cons r rest ih =>
    intro n h hwf hlt h31 hempty
    simp only [List.length_cons] at hlt h31
    have hkey : ((n : Int) + 1) = ((n + 1 : Nat) : Int) := by push_cast; rfl
    have hidx : h.index ((n : Int) + 1) = n + 1 := by
      unfold HashTable.index
      rw [hkey, toSizeT_natCast _ (by omega)]
      exact Nat.mod_eq_of_lt (by omega)
    obtain ⟨h', hins⟩ : ∃ h', h.insert ((n : Int) + 1) r = some h' :=
      ⟨_, h.insert_eq hwf _ r⟩
    obtain ⟨hwf', hsz'⟩ := h.insert_wf h' hwf _ r hins
    have hch' := h.insert_chain h' hwf _ r hins
    rw [hidx] at hch'
    have hvis' : h'.visited = h.visited ++ [r] := by
      unfold HashTable.visited
      rw [hsz', funext hch']
      exact flatMap_update_append _ r h.size (n + 1) (by omega)
        (fun b hb => hempty b (by omega))
    obtain ⟨h1, hall, hwf1, hsz1, hvis1⟩ := ih (n + 1) h' hwf' (by rw [hsz']; omega)
      (by omega) (fun b hb => by
        rw [hch' b, if_neg (by omega)]
        exact hempty b (by omega))
    refine ⟨h1, ?_, hwf1, hsz1.trans hsz', ?_⟩
    · simp only [withKeys, HashTable.insertAll, hins]
      exact hall
    · rw [hvis1, hvis']
      simp

theorem HashTable.new_visited (B : Nat) : (HashTable.new B).visited = [] := by
  rw [(HashTable.new B).visited_eq_of_chains (fun _ => []) (HashTable.new_chain B)]
  simp

/-- Keys 1, ..., N with N below the bucket count: the table visits the records in
insertion order. -/
theorem HashTable.visited_below_size (B : Nat) (rs : List RadioComponent)
    (hN : rs.length < B) (hN31 : rs.length < 2 ^ 31) :
    ∃ h1, (HashTable.new B).insertAll (withKeys 0 rs) = some h1 ∧ h1.WF ∧ h1.size = B
      ∧ h1.visited = rs := by
  obtain ⟨h1, hall, hwf1, hsz1, hvis⟩ := HashTable.insertAll_withKeys rs 0 (HashTable.new B)
    (HashTable.new_wf B (by omega)) (by simpa [HashTable.new] using hN) (by simpa using hN31)
    (fun b _ => HashTable.new_chain B b)
  exact ⟨h1, hall, hwf1, hsz1, by simpa [HashTable.new_visited] using hvis⟩

/-- Keys 1, ..., B with B the bucket count: the record with key B is visited first,
then the others in insertion order. -/
theorem HashTable.visited_at_size (init : List RadioComponent) (last : RadioComponent)
    (h31 : init.length + 1 < 2 ^ 31) :
    ∃ h2, (HashTable.new (init.length + 1)).insertAll (withKeys 0 (init ++ [last])) = some h2
      ∧ h2.visited = last :: init := by
  obtain ⟨h1, hall, hwf1, hsz1, hvis⟩ :=
    HashTable.visited_below_size (init.length + 1) init (by omega) (by omega)
  have hidx : h1.index (((0 + init.length : Nat) : Int) + 1) = 0 := by
    have hkey : (((0 + init.length : Nat) : Int) + 1) = ((init.length + 1 : Nat) : Int) := by
      push_cast
      omega
    unfold HashTable.index
    rw [hkey, toSizeT_natCast _ h31, hsz1]
    exact Nat.mod_self _
  obtain ⟨h2, hins⟩ : ∃ h2, h1.insert (((0 + init.length : Nat) : Int) + 1) last = some h2 :=
    ⟨_, h1.insert_eq hwf1 _ last⟩
  obtain ⟨-, hsz2⟩ := h1.insert_wf h2 hwf1 _ last hins
  have hch2 := h1.insert_chain h2 hwf1 _ last hins
  rw [hidx] at hch2
  refine ⟨h2, ?_, ?_⟩
  · rw [withKeys_append, HashTable.insertAll_append, hall]
    simp only [Option.bind, HashTable.insertAll, hins]
  · unfold HashTable.visited
    rw [hsz2, funext hch2, flatMap_update_cons_zero _ last h1.size hwf1.2]
    have hv : h1.visited = init := hvis
    unfold HashTable.visited at hv
    rw [hv]

/-! ## Helper lemmas: the input loop -/

theorem Scheme.inputLoop_eq_addAll (es : List Entry) :
    ∀ (s : Scheme) (i : Nat), s.inputLoop i es = s.addAll (keyedRecords i es) := by
  induction es with
  | nil => intro s i; rfl
  | cons e rest ih =>
    intro s i
    cases hm : e.makeComponent with
    | none => simp only [Scheme.inputLoop, keyedRecords, hm, ih]
    | some c =>
      simp only [Scheme.inputLoop, keyedRecords, hm, Scheme.addAll]
      cases s.addComponent ((i : Int) + 1) c with
      | none => rfl
      | some s1 => exact ih s1 (i + 1)

theorem keyedRecords_snd (es : List Entry) :
    ∀ i : Nat, (keyedRecords i es).map Prod.snd = es.filterMap Entry.makeComponent := by
  induction es with
  | nil => intro i; rfl
  | cons e rest ih =>
    intro i
    cases hm : e.makeComponent with
    | none => simp only [keyedRecords, hm, ih, List.filterMap_cons]
    | some c => simp only [keyedRecords, hm, ih, List.filterMap_cons, List.map_cons]

theorem Entry.makeComponent_isSome (e : Entry) :
    e.makeComponent.isSome = recognised e.componentType := by
  unfold Entry.makeComponent recognised
  by_cases h1 : e.componentType = "1"
  · simp [h1]
  by_cases h2 : e.componentType = "2"
  · simp [h2]
  by_cases h3 : e.componentType = "3"
  · simp [h3]
  by_cases h4 : e.componentType = "4"
  · simp [h4]
  by_cases h5 : e.componentType = "5"
  · simp [h5]
  simp [h1, h2, h3, h4, h5]

theorem Entry.makeComponent_selector (e : Entry) (c : RadioComponent)
    (h : e.makeComponent = some c) : c.kind.selector = some e.componentType := by
  unfold Entry.makeComponent at h
  split at h
  · next h1 => cases Option.some.inj h; simp [Resistor, Kind.selector, h1]
  split at h
  · next h2 => cases Option.some.inj h; simp [Capacitor, Kind.selector, h2]
  split at h
  · next h3 => cases Option.some.inj h; simp [Transistor, Kind.selector, h3]
  split at h
  · next h4 => cases Option.some.inj h; simp [Diode, Kind.selector, h4]
  split at h
  · next h5 => cases Option.some.inj h; simp [Inductor, Kind.selector, h5]
  cases h

theorem filterMap_makeComponent_length (es : List Entry) :
    (es.filterMap Entry.makeComponent).length
      = (es.filter (fun e => recognised e.componentType)).length := by
  induction es with
  | nil => rfl
  | cons e rest ih =>
    have hs := e.makeComponent_isSome
    cases hm : e.makeComponent with
    | none =>
      rw [hm] at hs
      have hr : recognised e.componentType = false := by simpa using hs.symm
      simp [List.filterMap_cons, hm, List.filter_cons, hr, ih]
    | some c =>
      rw [hm] at hs
      have hr : recognised e.componentType = true := by simpa using hs.symm
      simp [List.filterMap_cons, hm, List.filter_cons, hr, ih]

theorem filterMap_makeComponent_selector (es : List Entry) :
    (es.filterMap Entry.makeComponent).map (fun c => c.kind.selector)
      = ((es.map (fun e => e.componentType)).filter recognised).map some := by
  induction es with
  | nil => rfl
  | cons e rest ih =>
    have hs := e.makeComponent_isSome
    cases hm : e.makeComponent with
    | none =>
      rw [hm] at hs
      have hr : recognised e.componentType = false := by simpa using hs.symm
      simp [List.filterMap_cons, hm, List.filter_cons, hr, ih]
    | some c =>
      rw [hm] at hs
      have hr : recognised e.componentType = true := by simpa using hs.symm
      simp [List.filterMap_cons, hm, List.filter_cons, hr, ih,
        e.makeComponent_selector c hm]

theorem foldl_add_MTBF (cs : List RadioComponent) (a : ℚ) :
    cs.foldl (fun t c => t + c.MTBF) a = a + (cs.map (fun c => c.MTBF)).sum := by
  induction cs generalizing a with
  | nil => simp
  | cons c cs ih => simp [List.foldl_cons, ih, add_assoc]

theorem totalMTBF_eq_sum (s : Scheme) :
    s.totalMTBF = (s.components.map (fun c => c.MTBF)).sum := by
  simp [Scheme.totalMTBF, foldl_add_MTBF]

/-! ## Helper lemmas: the keys of the input loop -/

theorem keyedRecords_fst (es : List Entry) :
    ∀ i : Nat, (keyedRecords i es).map Prod.fst
      = ((es.enumFrom i).filter (fun p => recognised p.2.componentType)).map
          (fun (p : Nat × Entry) => (p.1 : Int) + 1) := by
  induction es with
  | nil => intro i; rfl
  | cons e rest ih =>
    intro i
    have hs := e.makeComponent_isSome
    cases hm : e.makeComponent with
    | none =>
      rw [hm] at hs
      have hr : recognised e.componentType = false := by simpa using hs.symm
      simp [keyedRecords, hm, List.enumFrom_cons, List.filter_cons, hr, ih]
    | some c =>
      rw [hm] at hs
      have hr : recognised e.componentType = true := by simpa using hs.symm
      simp [keyedRecords, hm, List.enumFrom_cons, List.filter_cons, hr, ih]

theorem keyedRecords_keys_bounds (es : List Entry) :
    ∀ i : Nat, (∀ k ∈ (keyedRecords i es).map Prod.fst,
        (i : Int) < k ∧ k ≤ (i : Int) + (es.length : Int))
      ∧ ((keyedRecords i es).map Prod.fst).Pairwise (fun a b => a < b) := by
  induction es with
  | nil => intro i; simp [keyedRecords]
  | cons e rest ih =>
    intro i
    obtain ⟨hb, hp⟩ := ih (i + 1)
    have hb1 : ∀ k ∈ (keyedRecords (i + 1) rest).map Prod.fst,
        (i : Int) < k ∧ k ≤ (i : Int) + ((e :: rest).length : Int) := by
      intro k hk
      have := hb k hk
      simp only [List.length_cons]
      push_cast at this ⊢
      omega
    cases hm : e.makeComponent with
    | none =>
      simp only [keyedRecords, hm]
      exact ⟨hb1, hp⟩
    | some c =>
      simp only [keyedRecords, hm, List.map_cons]
      refine ⟨?_, List.pairwise_cons.mpr ⟨?_, hp⟩⟩
      · intro k hk
        rcases List.mem_cons.mp hk with h | h
        · subst h
          simp only [List.length_cons]
          push_cast
          omega
        · exact hb1 k h
      · intro k hk
        have := hb k hk
        push_cast at this
        omega

theorem keyedRecords_all_recognised (es : List Entry) :
    ∀ i : Nat, (∀ e ∈ es, recognised e.componentType = true) →
      (keyedRecords i es).map Prod.fst
        = (List.range es.length).map (fun (j : Nat) => ((i + j : Nat) : Int) + 1) := by
  induction es with
  | nil => intro i _; rfl
  | cons e rest ih =>
    intro i hall
    have hs := e.makeComponent_isSome
    rw [hall e (List.mem_cons_self _ _)] at hs
    obtain ⟨c, hc⟩ := Option.isSome_iff_exists.mp hs
    have hrest := ih (i + 1) (fun e1 h1 => hall e1 (List.mem_cons_of_mem _ h1))
    simp only [keyedRecords, hc, List.map_cons, hrest, List.length_cons, List.range_succ_eq_map,
      List.map_map]
    refine congrArg₂ _ (by simp) (List.map_congr_left ?_)
    intro j _
    simp only [Function.comp]
    congr 2
    omega

/-! ## Helper lemmas: the reliability figures -/

theorem Scheme.run_series (s : Scheme) :
    s.calculateAndDisplayReliability 1
      = (s, Line.prompt
          :: Line.sequentialReliability (Val.div (some 1) (some s.calculateReliabilitySequential))
          :: s.derivedMetrics (Val.div (some 1) (some s.calculateReliabilitySequential))) := by
  simp [Scheme.calculateAndDisplayReliability]

theorem Scheme.run_parallel (s : Scheme) :
    s.calculateAndDisplayReliability 2
      = (s, Line.prompt
          :: Line.parallelReliability (some s.calculateReliabilityParallel)
          :: s.derivedMetrics (some s.calculateReliabilityParallel)) := by
  simp [Scheme.calculateAndDisplayReliability]

theorem Scheme.length_ne_zero (s : Scheme) (hne : s.components ≠ []) :
    (s.components.length : ℚ) ≠ 0 := by
  have : s.components.length ≠ 0 := fun h => hne (List.length_eq_zero.mp h)
  exact_mod_cast this

theorem Scheme.derivedMetrics_real (s : Scheme) (hne : s.components ≠ []) (r : ℚ)
    (hr : r ≠ 0) :
    s.derivedMetrics (some r)
      = [Line.failureProbability (some (1 - r)),
         Line.densityOfFailure (some ((1 - r) / r)),
         Line.intensityOfFailure (some s.calculateReliabilitySequential),
         Line.averageMTBF (some (s.totalMTBF / (s.components.length : ℚ))),
         Line.gammaPercentMTBF (some (s.totalMTBF * r))] := by
  simp [Scheme.derivedMetrics, Val.sub, Val.div, Val.mul, s.length_ne_zero hne, hr]

theorem Scheme.derivedMetrics_explicit (s : Scheme) (R : Val) :
    s.derivedMetrics R
      = [Line.failureProbability (R.map (fun r => 1 - r)),
         Line.densityOfFailure (R.bind (fun r => if r = 0 then none else some ((1 - r) / r))),
         Line.intensityOfFailure (some s.calculateReliabilitySequential),
         Line.averageMTBF
           (if (s.components.length : ℚ) = 0 then none
            else some ((s.components.map (fun c => c.MTBF)).sum / (s.components.length : ℚ))),
         Line.gammaPercentMTBF
           (R.map (fun r => (s.components.map (fun c => c.MTBF)).sum * r))] := by
  cases R with
  | none => simp [Scheme.derivedMetrics, Val.sub, Val.div, Val.mul, totalMTBF_eq_sum]
  | some r => simp [Scheme.derivedMetrics, Val.sub, Val.div, Val.mul, totalMTBF_eq_sum]

theorem Scheme.divisors_series (s : Scheme) :
    s.divisors 1
      = [some s.calculateReliabilitySequential,
         if s.calculateReliabilitySequential = 0 then none
         else some (1 / s.calculateReliabilitySequential),
         some (s.components.length : ℚ)] := by
  simp [Scheme.divisors, Val.div]

theorem Scheme.divisors_parallel (s : Scheme) :
    s.divisors 2 = [some s.calculateReliabilityParallel, some (s.components.length : ℚ)] := by
  simp [Scheme.divisors]

theorem Scheme.addComponent_spec (s : Scheme) (hwf : s.componentTable.WF) (key : Int)
    (c : RadioComponent) :
    ∃ t, s.componentTable.insert key c = some t
      ∧ s.addComponent key c
          = some { name := s.name, componentTable := t, components := s.components ++ [c] } := by
  refine ⟨_, s.componentTable.insert_eq hwf key c, ?_⟩
  simp only [Scheme.addComponent, s.componentTable.insert_eq hwf key c]

theorem parallel_append (s t : Scheme) (c : RadioComponent)
    (ht : t.components = s.components ++ [c]) :
    t.calculateReliabilityParallel
      = 1 - (1 - s.calculateReliabilityParallel) * (1 - c.failureRate) := by
  rw [parallel_eq_prod, parallel_eq_prod, ht]
  simp

theorem sampleScheme_sequential : sampleScheme.calculateReliabilitySequential = 3 / 10 := by
  simp [Scheme.calculateReliabilitySequential, sampleScheme, sampleR1, sampleR2, Resistor]
  norm_num

/-! ## Helper lemmas: rounding -/

theorem log2Fuel_spec : ∀ (fuel n : Nat), n ≤ fuel → 0 < n →
    2 ^ log2Fuel fuel n ≤ n ∧ n < 2 ^ (log2Fuel fuel n + 1) := by
  intro fuel
  induction fuel with
  | zero => intro n h1 h2; omega
  | succ fuel ih =>
    intro n hle hpos
    unfold log2Fuel
    by_cases h2 : 2 ≤ n
    · rw [if_pos h2]
      obtain ⟨ha, hb⟩ := ih (n / 2) (by omega) (by omega)
      constructor
      · rw [pow_succ]; omega
      · rw [pow_succ]; omega
    · rw [if_neg h2]
      have : n = 1 := by omega
      subst this
      simp

theorem rne_floor_le (x : ℚ) : ⌊x⌋ ≤ rne x := by
  unfold rne
  split_ifs <;> omega

theorem rne_le_floor_succ (x : ℚ) : rne x ≤ ⌊x⌋ + 1 := by
  unfold rne
  split_ifs <;> omega

theorem rne_intCast (n : ℤ) : rne (n : ℚ) = n := by
  unfold rne
  simp

theorem rne_mono {a b : ℚ} (h : a ≤ b) : rne a ≤ rne b := by
  have hf : ⌊a⌋ ≤ ⌊b⌋ := Int.floor_mono h
  rcases lt_or_eq_of_le hf with hlt | heq
  · calc rne a ≤ ⌊a⌋ + 1 := rne_le_floor_succ a
      _ ≤ ⌊b⌋ := by omega
      _ ≤ rne b := rne_floor_le b
  · have hd : a - ⌊a⌋ ≤ b - ⌊b⌋ := by rw [heq]; linarith
    unfold rne
    rw [heq] at hd ⊢
    split_ifs <;> first | omega | (exfalso; linarith)

theorem rne_ge_of_le {n : ℤ} {x : ℚ} (h : (n : ℚ) ≤ x) : n ≤ rne x := by
  have := rne_mono h
  rwa [rne_intCast] at this

theorem rne_le_of_le {n : ℤ} {x : ℚ} (h : x ≤ (n : ℚ)) : rne x ≤ n := by
  have := rne_mono h
  rwa [rne_intCast] at this

theorem rne_of_gt_half {n : ℤ} {x : ℚ} (h1 : (n : ℚ) + 1 / 2 < x) (h2 : x < (n : ℚ) + 1) :
    rne x = n + 1 := by
  have hf : ⌊x⌋ = n := by
    rw [Int.floor_eq_iff]
    constructor <;> linarith
  unfold rne
  rw [hf]
  have h3 : ¬ (x - (n : ℚ) < 1 / 2) := by linarith
  have h4 : (1 : ℚ) / 2 < x - (n : ℚ) := by linarith
  rw [if_neg h3, if_pos h4]

theorem ilog2_aux (n d a b : ℕ) (hn : 0 < n) (hd : 0 < d)
    (ha1 : 2 ^ a ≤ n) (ha2 : n < 2 ^ (a + 1)) (hb1 : 2 ^ b ≤ d) (hb2 : d < 2 ^ (b + 1)) :
    (2 : ℚ) ^ (if d * 2 ^ a ≤ n * 2 ^ b then (a : ℤ) - (b : ℤ) else (a : ℤ) - (b : ℤ) - 1)
        ≤ (n : ℚ) / (d : ℚ)
    ∧ (n : ℚ) / (d : ℚ)
        < (2 : ℚ) ^ ((if d * 2 ^ a ≤ n * 2 ^ b then (a : ℤ) - (b : ℤ)
            else (a : ℤ) - (b : ℤ) - 1) + 1) := by
  have hdq : (0 : ℚ) < (d : ℚ) := by exact_mod_cast hd
  have hnq : (0 : ℚ) < (n : ℚ) := by exact_mod_cast hn
  have qa1 : (2 : ℚ) ^ a ≤ (n : ℚ) := by exact_mod_cast ha1
  have qa2 : (n : ℚ) < (2 : ℚ) ^ (a + 1) := by exact_mod_cast ha2
  have qb1 : (2 : ℚ) ^ b ≤ (d : ℚ) := by exact_mod_cast hb1
  have qb2 : (d : ℚ) < (2 : ℚ) ^ (b + 1) := by exact_mod_cast hb2
  have pa : (0 : ℚ) < (2 : ℚ) ^ a := by positivity
  have pb : (0 : ℚ) < (2 : ℚ) ^ b := by positivity
  have pa1 : (0 : ℚ) < (2 : ℚ) ^ (a + 1) := by positivity
  have pb1 : (0 : ℚ) < (2 : ℚ) ^ (b + 1) := by positivity
  have e1 : (2 : ℚ) ^ ((a : ℤ) - (b : ℤ)) = (2 : ℚ) ^ a / (2 : ℚ) ^ b := by
    rw [zpow_sub₀ (by norm_num : (2 : ℚ) ≠ 0), zpow_natCast, zpow_natCast]
  have e2 : (2 : ℚ) ^ ((a : ℤ) - (b : ℤ) + 1) = (2 : ℚ) ^ (a + 1) / (2 : ℚ) ^ b := by
    rw [zpow_add₀ (by norm_num : (2 : ℚ) ≠ 0), e1, zpow_one, pow_succ]
    ring
  have e3 : (2 : ℚ) ^ ((a : ℤ) - (b : ℤ) - 1) = (2 : ℚ) ^ a / (2 : ℚ) ^ (b + 1) := by
    rw [zpow_sub₀ (by norm_num : (2 : ℚ) ≠ 0), e1, zpow_one, pow_succ]
    field_simp
  have e4 : (2 : ℚ) ^ ((a : ℤ) - (b : ℤ) - 1 + 1) = (2 : ℚ) ^ a / (2 : ℚ) ^ b := by
    rw [sub_add_cancel, e1]
  by_cases hc : d * 2 ^ a ≤ n * 2 ^ b
  · have qc : (d : ℚ) * (2 : ℚ) ^ a ≤ (n : ℚ) * (2 : ℚ) ^ b := by exact_mod_cast hc
    rw [if_pos hc, e1, e2]
    constructor
    · rw [div_le_div_iff₀ pb hdq]
      linarith
    · rw [div_lt_div_iff₀ hdq pb]
      calc (n : ℚ) * (2 : ℚ) ^ b < (2 : ℚ) ^ (a + 1) * (2 : ℚ) ^ b :=
            mul_lt_mul_of_pos_right qa2 pb
        _ ≤ (2 : ℚ) ^ (a + 1) * (d : ℚ) := mul_le_mul_of_nonneg_left qb1 (le_of_lt pa1)
  · have qc : (n : ℚ) * (2 : ℚ) ^ b < (d : ℚ) * (2 : ℚ) ^ a := by
      have : n * 2 ^ b < d * 2 ^ a := Nat.lt_of_not_le hc
      exact_mod_cast this
    rw [if_neg hc, e3, e4]
    constructor
    · rw [div_le_div_iff₀ pb1 hdq]
      calc (2 : ℚ) ^ a * (d : ℚ) ≤ (n : ℚ) * (d : ℚ) :=
            mul_le_mul_of_nonneg_right qa1 (le_of_lt hdq)
        _ ≤ (n : ℚ) * (2 : ℚ) ^ (b + 1) :=
            mul_le_mul_of_nonneg_left (le_of_lt qb2) (le_of_lt hnq)
    · rw [div_lt_div_iff₀ hdq pb]
      linarith

theorem ilog2_spec (x : ℚ) (hx : 0 < x) :
    (2 : ℚ) ^ ilog2 x ≤ x ∧ x < (2 : ℚ) ^ (ilog2 x + 1) := by
  have hnum : 0 < x.num := Rat.num_pos.mpr hx
  have hn : 0 < x.num.natAbs := Int.natAbs_pos.mpr (ne_of_gt hnum)
  have hd : 0 < x.den := x.den_pos
  obtain ⟨ha1, ha2⟩ := log2Fuel_spec x.num.natAbs x.num.natAbs (le_refl _) hn
  obtain ⟨hb1, hb2⟩ := log2Fuel_spec x.den x.den (le_refl _) hd
  have hxe : (x.num.natAbs : ℚ) / (x.den : ℚ) = x := by
    have h1 : ((x.num.natAbs : ℤ) : ℚ) = (x.num : ℚ) := by
      rw [Int.natAbs_of_nonneg (le_of_lt hnum)]
    have h2 : ((x.num.natAbs : ℕ) : ℚ) = (x.num : ℚ) := by
      rw [← h1, Int.cast_natCast]
    rw [h2]
    exact Rat.num_div_den x
  have h := ilog2_aux x.num.natAbs x.den _ _ hn hd ha1 ha2 hb1 hb2
  rw [hxe] at h
  exact h

theorem ilog2_unique (x : ℚ) (hx : 0 < x) (e : ℤ) (h1 : (2 : ℚ) ^ e ≤ x)
    (h2 : x < (2 : ℚ) ^ (e + 1)) : ilog2 x = e := by
  obtain ⟨s1, s2⟩ := ilog2_spec x hx
  have a1 : e < ilog2 x + 1 :=
    (zpow_lt_zpow_iff_right₀ (by norm_num : (1 : ℚ) < 2)).mp (lt_of_le_of_lt h1 s2)
  have a2 : ilog2 x < e + 1 :=
    (zpow_lt_zpow_iff_right₀ (by norm_num : (1 : ℚ) < 2)).mp (lt_of_le_of_lt s1 h2)
  omega

theorem ilog2_mono {x y : ℚ} (hx : 0 < x) (h : x ≤ y) : ilog2 x ≤ ilog2 y := by
  obtain ⟨s1, -⟩ := ilog2_spec x hx
  obtain ⟨-, t2⟩ := ilog2_spec y (lt_of_lt_of_le hx h)
  have : ilog2 x < ilog2 y + 1 :=
    (zpow_lt_zpow_iff_right₀ (by norm_num : (1 : ℚ) < 2)).mp
      (lt_of_le_of_lt (le_trans s1 h) t2)
  omega

theorem ulp_pos (x : ℚ) : 0 < ulp x := by
  unfold ulp
  positivity

theorem pow53_mul_ulp (x : ℚ) :
    (((2 : ℤ) ^ 53 : ℤ) : ℚ) * ulp x = (2 : ℚ) ^ (max (ilog2 x) (-1022) + 1) := by
  unfold ulp
  have h : (((2 : ℤ) ^ 53 : ℤ) : ℚ) = (2 : ℚ) ^ (53 : ℤ) := by norm_num
  rw [h, ← zpow_add₀ (by norm_num : (2 : ℚ) ≠ 0)]
  congr 1
  ring

theorem pow52_mul_ulp (x : ℚ) :
    (((2 : ℤ) ^ 52 : ℤ) : ℚ) * ulp x = (2 : ℚ) ^ (max (ilog2 x) (-1022)) := by
  unfold ulp
  have h : (((2 : ℤ) ^ 52 : ℤ) : ℚ) = (2 : ℚ) ^ (52 : ℤ) := by norm_num
  rw [h, ← zpow_add₀ (by norm_num : (2 : ℚ) ≠ 0)]
  congr 1
  ring

theorem roundPos_zero : roundPos 0 = 0 := by
  simp [roundPos, rne]

theorem roundPos_nonneg {x : ℚ} (hx : 0 ≤ x) : 0 ≤ roundPos x := by
  unfold roundPos
  have h0 : (0 : ℤ) ≤ rne (x / ulp x) :=
    rne_ge_of_le (by simpa using div_nonneg hx (le_of_lt (ulp_pos x)))
  exact mul_nonneg (by exact_mod_cast h0) (le_of_lt (ulp_pos x))

/-- The significand of the rounding of a positive `x` is at most `2 ^ 53`. -/
theorem rne_div_ulp_le {x : ℚ} (hx : 0 < x) : rne (x / ulp x) ≤ (2 : ℤ) ^ 53 := by
  apply rne_le_of_le
  rw [div_le_iff₀ (ulp_pos x), pow53_mul_ulp]
  have h1 := (ilog2_spec x hx).2
  have h2 : (2 : ℚ) ^ (ilog2 x + 1) ≤ (2 : ℚ) ^ (max (ilog2 x) (-1022) + 1) :=
    zpow_le_zpow_right₀ (by norm_num) (by omega)
  linarith

/-- The significand of the rounding of a normal `x` is at least `2 ^ 52`. -/
theorem le_rne_div_ulp {x : ℚ} (hx : 0 < x) (he : -1022 ≤ ilog2 x) :
    (2 : ℤ) ^ 52 ≤ rne (x / ulp x) := by
  apply rne_ge_of_le
  rw [le_div_iff₀ (ulp_pos x), pow52_mul_ulp, max_eq_left he]
  exact (ilog2_spec x hx).1

theorem roundPos_le_pow {x : ℚ} (hx : 0 < x) :
    roundPos x ≤ (2 : ℚ) ^ (max (ilog2 x) (-1022) + 1) := by
  unfold roundPos
  rw [← pow53_mul_ulp]
  have h : ((rne (x / ulp x) : ℤ) : ℚ) ≤ (((2 : ℤ) ^ 53 : ℤ) : ℚ) := by
    exact_mod_cast rne_div_ulp_le hx
  exact mul_le_mul_of_nonneg_right h (le_of_lt (ulp_pos x))

theorem pow_le_roundPos {x : ℚ} (hx : 0 < x) (he : -1022 ≤ ilog2 x) :
    (2 : ℚ) ^ ilog2 x ≤ roundPos x := by
  unfold roundPos
  have h : (((2 : ℤ) ^ 52 : ℤ) : ℚ) ≤ ((rne (x / ulp x) : ℤ) : ℚ) := by
    exact_mod_cast le_rne_div_ulp hx he
  have h2 := mul_le_mul_of_nonneg_right h (le_of_lt (ulp_pos x))
  rw [pow52_mul_ulp, max_eq_left he] at h2
  exact h2

theorem roundPos_mono {x y : ℚ} (hx : 0 ≤ x) (h : x ≤ y) : roundPos x ≤ roundPos y := by
  rcases eq_or_lt_of_le hx with h0 | hpos
  · rw [← h0, roundPos_zero]
    exact roundPos_nonneg (le_trans hx h)
  have hy : 0 < y := lt_of_lt_of_le hpos h
  have hlog := ilog2_mono hpos h
  by_cases hE : max (ilog2 x) (-1022) = max (ilog2 y) (-1022)
  · have hu : ulp x = ulp y := by unfold ulp; rw [hE]
    unfold roundPos
    rw [hu]
    have : rne (x / ulp y) ≤ rne (y / ulp y) :=
      rne_mono (div_le_div_of_nonneg_right h (le_of_lt (ulp_pos y)))
    exact mul_le_mul_of_nonneg_right (by exact_mod_cast this) (le_of_lt (ulp_pos y))
  · have hlt : max (ilog2 x) (-1022) < ilog2 y := by omega
    have he : -1022 ≤ ilog2 y := by omega
    calc roundPos x ≤ (2 : ℚ) ^ (max (ilog2 x) (-1022) + 1) := roundPos_le_pow hpos
      _ ≤ (2 : ℚ) ^ ilog2 y := zpow_le_zpow_right₀ (by norm_num) (by omega)
      _ ≤ roundPos y := pow_le_roundPos hy he

theorem roundPos_of_int_mul_ulp {x : ℚ} (m : ℤ) (h : x = (m : ℚ) * ulp x) :
    roundPos x = x := by
  unfold roundPos
  have hq : x / ulp x = (m : ℚ) := by
    rw [div_eq_iff (ne_of_gt (ulp_pos x))]
    exact h
  rw [hq, rne_intCast]
  exact h.symm

theorem ulp_eq_of_exp {x y : ℚ} (h : max (ilog2 y) (-1022) = max (ilog2 x) (-1022)) :
    ulp y = ulp x := by
  unfold ulp
  rw [h]

theorem roundPos_idem {x : ℚ} (hx : 0 ≤ x) : roundPos (roundPos x) = roundPos x := by
  rcases eq_or_lt_of_le hx with h0 | hpos
  · rw [← h0, roundPos_zero, roundPos_zero]
  have hm53 := rne_div_ulp_le hpos
  have hm0 : (0 : ℤ) ≤ rne (x / ulp x) :=
    rne_ge_of_le (by simpa using div_nonneg hx (le_of_lt (ulp_pos x)))
  have hy : roundPos x = ((rne (x / ulp x) : ℤ) : ℚ) * ulp x := rfl
  have hE : -1022 ≤ max (ilog2 x) (-1022) := le_max_right _ _
  rcases eq_or_lt_of_le hm0 with hz | hmpos
  · rw [hy, ← hz]
    simp [roundPos_zero]
  have hypos : 0 < roundPos x := by
    rw [hy]
    exact mul_pos (by exact_mod_cast hmpos) (ulp_pos x)
  rcases eq_or_lt_of_le hm53 with h53 | hlt53
  · -- the rounding reached the next power of two
    have hval : roundPos x = (2 : ℚ) ^ (max (ilog2 x) (-1022) + 1) := by
      rw [hy, h53, pow53_mul_ulp]
    have hlog : ilog2 (roundPos x) = max (ilog2 x) (-1022) + 1 := by
      apply ilog2_unique _ hypos
      · rw [hval]
      · rw [hval]
        exact zpow_lt_zpow_right₀ (by norm_num) (by omega)
    apply roundPos_of_int_mul_ulp ((2 : ℤ) ^ 52)
    rw [pow52_mul_ulp, hlog, max_eq_left (by omega)]
    exact hval
  · have hexp : max (ilog2 (roundPos x)) (-1022) = max (ilog2 x) (-1022) := by
      have hup : roundPos x < (2 : ℚ) ^ (max (ilog2 x) (-1022) + 1) := by
        rw [hy, ← pow53_mul_ulp]
        exact mul_lt_mul_of_pos_right (by exact_mod_cast hlt53) (ulp_pos x)
      by_cases h52 : (2 : ℤ) ^ 52 ≤ rne (x / ulp x)
      · have hlow : (2 : ℚ) ^ (max (ilog2 x) (-1022)) ≤ roundPos x := by
          rw [hy, ← pow52_mul_ulp]
          exact mul_le_mul_of_nonneg_right (by exact_mod_cast h52) (le_of_lt (ulp_pos x))
        rw [ilog2_unique _ hypos _ hlow hup]
        exact max_eq_left hE
      · have hsub : ilog2 x < -1022 := by
          by_contra hc
          exact h52 (le_rne_div_ulp hpos (by omega))
        have hEx : max (ilog2 x) (-1022) = -1022 := max_eq_right (by omega)
        have hlt : roundPos x < (2 : ℚ) ^ (-1022 : ℤ) := by
          have h1 : roundPos x < (((2 : ℤ) ^ 52 : ℤ) : ℚ) * ulp x := by
            rw [hy]
            exact mul_lt_mul_of_pos_right (by exact_mod_cast Int.lt_of_not_ge h52) (ulp_pos x)
          rw [pow52_mul_ulp, hEx] at h1
          exact h1
        have hl : ilog2 (roundPos x) < -1022 :=
          (zpow_lt_zpow_iff_right₀ (by norm_num : (1 : ℚ) < 2)).mp
            (lt_of_le_of_lt (ilog2_spec _ hypos).1 hlt)
        rw [hEx]
        exact max_eq_right (by omega)
    apply roundPos_of_int_mul_ulp (rne (x / ulp x))
    rw [ulp_eq_of_exp hexp]
    exact hy

theorem roundPos_one : roundPos 1 = 1 := by decide!

theorem roundPos_le_one {x : ℚ} (h0 : 0 ≤ x) (h1 : x ≤ 1) : roundPos x ≤ 1 := by
  have := roundPos_mono h0 h1
  rwa [roundPos_one] at this

theorem round64_of_nonneg {x : ℚ} (h0 : 0 ≤ x) : round64 x = roundPos x := by
  unfold round64
  rw [if_pos h0]

theorem fl64_unit {x : ℚ} (h0 : 0 ≤ x) (h1 : x ≤ 1) : fl64 x = some (roundPos x) := by
  unfold fl64
  rw [round64_of_nonneg h0, abs_of_nonneg (roundPos_nonneg h0)]
  have h2 : roundPos x < 2 ^ 1024 :=
    lt_of_le_of_lt (roundPos_le_one h0 h1) (by norm_num)
  rw [if_pos h2]

theorem fl64_eq_some {x y : ℚ} (h : fl64 x = some y) : y = round64 x := by
  unfold fl64 at h
  split at h
  · exact (Option.some.inj h).symm
  · cases h

/-! ## Helper lemmas: the parallel loop in double arithmetic -/

/-- One round of the loop of `calculateReliabilityParallel` in double arithmetic,
on a running product that is a double in [0,1] and a rate in [0,1]: the product
stays a double in [0,1] and does not grow. -/
theorem parallel64_step (P : ℚ) (hP0 : 0 ≤ P) (hP1 : P ≤ 1) (hPd : roundPos P = P)
    (c : RadioComponent) (hc : 0 ≤ c.failureRate ∧ c.failureRate ≤ 1) :
    ∃ P1, F64.mul (some P) (F64.sub (some 1) (fl64 c.failureRate)) = some P1
      ∧ 0 ≤ P1 ∧ P1 ≤ P ∧ roundPos P1 = P1 := by
  have hf0 := roundPos_nonneg hc.1
  have hf1 := roundPos_le_one hc.1 hc.2
  have hg0 : 0 ≤ 1 - roundPos c.failureRate := by linarith
  have hg1 : 1 - roundPos c.failureRate ≤ 1 := by linarith
  have hG0 := roundPos_nonneg hg0
  have hG1 := roundPos_le_one hg0 hg1
  have hm0 : 0 ≤ P * roundPos (1 - roundPos c.failureRate) := mul_nonneg hP0 hG0
  have hmP : P * roundPos (1 - roundPos c.failureRate) ≤ P := by
    calc P * roundPos (1 - roundPos c.failureRate) ≤ P * 1 :=
          mul_le_mul_of_nonneg_left hG1 hP0
      _ = P := mul_one P
  refine ⟨roundPos (P * roundPos (1 - roundPos c.failureRate)), ?_, roundPos_nonneg hm0, ?_,
    roundPos_idem hm0⟩
  · rw [fl64_unit hc.1 hc.2]
    simp only [F64.sub, F64.mul]
    rw [fl64_unit hg0 hg1]
    simp only []
    rw [fl64_unit hm0 (le_trans hmP hP1)]
  · have := roundPos_mono hm0 hmP
    rwa [hPd] at this

theorem parallel64_loop (cs : List RadioComponent)
    (hcs : ∀ c ∈ cs, 0 ≤ c.failureRate ∧ c.failureRate ≤ 1) :
    ∀ P : ℚ, 0 ≤ P → P ≤ 1 → roundPos P = P →
      ∃ P1, cs.foldl (fun totalReliability component =>
            F64.mul totalReliability (F64.sub (some 1) (fl64 component.failureRate))) (some P)
          = some P1 ∧ 0 ≤ P1 ∧ P1 ≤ P ∧ roundPos P1 = P1 := by
  induction cs with
  | nil => intro P h0 _ hd; exact ⟨P, rfl, h0, le_refl _, hd⟩
  | cons c rest ih =>
    intro P h0 h1 hd
    obtain ⟨P1, hstep, a0, a1, ad⟩ :=
      parallel64_step P h0 h1 hd c (hcs c (List.mem_cons_self _ _))
    obtain ⟨P2, hrest, b0, b1, bd⟩ :=
      ih (fun x hx => hcs x (List.mem_cons_of_mem _ hx)) P1 a0 (le_trans a1 h1) ad
    refine ⟨P2, ?_, b0, le_trans b1 a1, bd⟩
    rw [List.foldl_cons, hstep]
    exact hrest

/-- In double arithmetic, with all rates in [0,1], `calculateReliabilityParallel`
returns a finite double, and appending a component with a rate in [0,1] does not
lower it. -/
theorem parallel64_monotone (s t : Scheme) (c : RadioComponent)
    (ht : t.components = s.components ++ [c])
    (hs : ∀ x ∈ s.components, 0 ≤ x.failureRate ∧ x.failureRate ≤ 1)
    (hc : 0 ≤ c.failureRate ∧ c.failureRate ≤ 1) :
    ∃ a b : ℚ, s.calculateReliabilityParallel64 = some a
      ∧ t.calculateReliabilityParallel64 = some b ∧ 0 ≤ a ∧ a ≤ b ∧ b ≤ 1 := by
  obtain ⟨P1, hfold, a0, a1, ad⟩ := parallel64_loop s.components hs 1 (by norm_num)
    (le_refl _) roundPos_one
  obtain ⟨P2, hstep, b0, b1, -⟩ := parallel64_step P1 a0 a1 ad c hc
  have hs1 : (0 : ℚ) ≤ 1 - P1 := by linarith
  have hs2 : 1 - P1 ≤ 1 - P2 := by linarith
  have hs3 : 1 - P2 ≤ (1 : ℚ) := by linarith
  refine ⟨roundPos (1 - P1), roundPos (1 - P2), ?_, ?_, roundPos_nonneg hs1,
    roundPos_mono hs1 hs2, roundPos_le_one (le_trans hs1 hs2) hs3⟩
  · unfold Scheme.calculateReliabilityParallel64
    rw [hfold]
    simp only [F64.sub]
    exact fl64_unit hs1 (by linarith)
  · unfold Scheme.calculateReliabilityParallel64
    rw [ht, List.foldl_append, hfold, List.foldl_cons, List.foldl_nil, hstep]
    simp only [F64.sub]
    exact fl64_unit (le_trans hs1 hs2) hs3

/-- In double arithmetic the result for a single component with a rate in [0,1]
is the rounded `1 - (1 - rate)`, each difference rounded in turn. -/
theorem parallel64_single (s : Scheme) (c : RadioComponent)
    (hc : 0 ≤ c.failureRate ∧ c.failureRate ≤ 1) :
    Scheme.calculateReliabilityParallel64 { s with components := [c] }
      = some (roundPos (1 - roundPos (1 - roundPos c.failureRate))) := by
  have hf0 := roundPos_nonneg hc.1
  have hf1 := roundPos_le_one hc.1 hc.2
  have hg0 : 0 ≤ 1 - roundPos c.failureRate := by linarith
  have hg1 : 1 - roundPos c.failureRate ≤ 1 := by linarith
  have hG0 := roundPos_nonneg hg0
  have hG1 := roundPos_le_one hg0 hg1
  unfold Scheme.calculateReliabilityParallel64
  simp only [List.foldl_cons, List.foldl_nil]
  rw [fl64_unit hc.1 hc.2]
  simp only [F64.sub, F64.mul]
  rw [fl64_unit hg0 hg1]
  simp only [one_mul]
  rw [fl64_unit hG0 hG1, roundPos_idem hg0]
  simp only []
  rw [fl64_unit (by linarith) (by linarith)]

/-! ## Helper lemmas: the series figures in double arithmetic -/

theorem roundPos_half : roundPos (1 / 2) = 1 / 2 := by decide!

theorem roundPos_below_one : roundPos (1 - 1 / 2 ^ 53) = 1 - 1 / 2 ^ 53 := by decide!

theorem roundPos_above_one : roundPos (1 + 1 / 2 ^ 52) = 1 + 1 / 2 ^ 52 := by decide!

theorem roundPos_eps : roundPos (1 / 2 ^ 52) = 1 / 2 ^ 52 := by decide!

/-- No double lies strictly between `1 - 2 ^ (-53)` and 1. -/
theorem roundPos_lt_one {x : ℚ} (hx : 0 < x) (h : roundPos x < 1) :
    roundPos x ≤ 1 - 1 / 2 ^ 53 := by
  have hx1 : x < 1 := by
    by_contra hc
    have := roundPos_mono (by norm_num : (0 : ℚ) ≤ 1) (not_lt.mp hc)
    rw [roundPos_one] at this
    linarith
  by_cases hhalf : x < 1 / 2
  · have := roundPos_mono (le_of_lt hx) (le_of_lt hhalf)
    rw [roundPos_half] at this
    have hc : (1 : ℚ) / 2 ≤ 1 - 1 / 2 ^ 53 := by norm_num
    linarith
  · have hlog : ilog2 x = -1 :=
      ilog2_unique x hx (-1) (by norm_num; linarith) (by norm_num; linarith)
    have hu : ulp x = 1 / 2 ^ 53 := by
      unfold ulp
      rw [hlog]
      norm_num
    have hy : roundPos x = ((rne (x / ulp x) : ℤ) : ℚ) * ulp x := rfl
    rw [hy, hu] at h ⊢
    have hm : ((rne (x / (1 / 2 ^ 53)) : ℤ) : ℚ) < (((2 : ℤ) ^ 53 : ℤ) : ℚ) := by
      have h2 : (0 : ℚ) < 1 / 2 ^ 53 := by norm_num
      have h3 := (lt_div_iff₀ h2).mpr h
      norm_num at h3 ⊢
      exact h3
    have hm' : rne (x / (1 / 2 ^ 53)) ≤ (2 : ℤ) ^ 53 - 1 := by
      have : rne (x / (1 / 2 ^ 53)) < (2 : ℤ) ^ 53 := by exact_mod_cast hm
      omega
    have hm'' : ((rne (x / (1 / 2 ^ 53)) : ℤ) : ℚ) ≤ (((2 : ℤ) ^ 53 - 1 : ℤ) : ℚ) := by
      exact_mod_cast hm'
    have h4 := mul_le_mul_of_nonneg_right hm'' (by norm_num : (0 : ℚ) ≤ 1 / 2 ^ 53)
    norm_num at h4 ⊢
    linarith

/-- A value above `1 + 2 ^ (-53)` rounds to a double above 1. -/
theorem roundPos_gt_one {y : ℚ} (h : 1 + 1 / 2 ^ 53 < y) : 1 + 1 / 2 ^ 52 ≤ roundPos y := by
  by_cases hbig : 1 + 1 / 2 ^ 52 ≤ y
  · have := roundPos_mono (by norm_num : (0 : ℚ) ≤ 1 + 1 / 2 ^ 52) hbig
    rwa [roundPos_above_one] at this
  · have hlt : y < 1 + 1 / 2 ^ 52 := not_le.mp hbig
    have hy0 : 0 < y := by
      have : (0 : ℚ) < 1 + 1 / 2 ^ 53 := by norm_num
      linarith
    have hlog : ilog2 y = 0 := by
      apply ilog2_unique y hy0 0
      · have : (1 : ℚ) ≤ 1 + 1 / 2 ^ 53 := by norm_num
        norm_num
        linarith
      · have : (1 : ℚ) + 1 / 2 ^ 52 ≤ 2 := by norm_num
        norm_num
        linarith
    have hu : ulp y = 1 / 2 ^ 52 := by
      unfold ulp
      rw [hlog]
      norm_num
    have hr : rne (y / ulp y) = (2 : ℤ) ^ 52 + 1 := by
      apply rne_of_gt_half
      · rw [hu, lt_div_iff₀ (by norm_num)]
        norm_num at h ⊢
        linarith
      · rw [hu, div_lt_iff₀ (by norm_num)]
        norm_num at hlt ⊢
        linarith
    have hy : roundPos y = ((rne (y / ulp y) : ℤ) : ℚ) * ulp y := rfl
    rw [hy, hr, hu]
    norm_num

theorem round64_pos {x : ℚ} (h : 0 < round64 x) : 0 < x ∧ round64 x = roundPos x := by
  by_cases h0 : 0 ≤ x
  · rw [round64_of_nonneg h0] at h ⊢
    refine ⟨?_, rfl⟩
    rcases eq_or_lt_of_le h0 with he | hl
    · rw [← he, roundPos_zero] at h
      exact absurd h (lt_irrefl _)
    · exact hl
  · exfalso
    unfold round64 at h
    rw [if_neg h0] at h
    have := roundPos_nonneg (x := -x) (by linarith)
    linarith

/-- In double arithmetic, for a sum `S` that is a double with `0 < S < 1`, the
failure probability `1 - 1 / S`, when it is finite, is negative. -/
theorem series64_failureProbability_neg (S x : ℚ) (hS : S = round64 x) (h0 : 0 < S)
    (h1 : S < 1) (v : ℚ)
    (hv : F64.sub (some 1) (F64.div (some 1) (some S)) = some v) : v < 0 := by
  rw [hS] at h0 h1
  obtain ⟨hx, hr⟩ := round64_pos h0
  have hle : S ≤ 1 - 1 / 2 ^ 53 := by
    rw [hS, hr]
    rw [hr] at h1
    exact roundPos_lt_one hx h1
  have hSpos : 0 < S := by rw [hS]; exact h0
  have hinv : 1 + 1 / 2 ^ 53 < 1 / S := by
    rw [lt_div_iff₀ hSpos]
    have hc : (1 + 1 / 2 ^ 53 : ℚ) * (1 - 1 / 2 ^ 53) < 1 := by norm_num
    have hm : (1 + 1 / 2 ^ 53 : ℚ) * S ≤ (1 + 1 / 2 ^ 53) * (1 - 1 / 2 ^ 53) :=
      mul_le_mul_of_nonneg_left hle (by norm_num)
    linarith
  have hne : S ≠ 0 := ne_of_gt hSpos
  simp only [F64.div, if_neg hne] at hv
  cases hR : fl64 (1 / S) with
  | none => rw [hR] at hv; cases hv
  | some R =>
    rw [hR] at hv
    simp only [F64.sub] at hv
    have hRv := fl64_eq_some hR
    have hinv0 : (0 : ℚ) ≤ 1 / S := le_of_lt (by positivity)
    rw [round64_of_nonneg hinv0] at hRv
    have hRge : 1 + 1 / 2 ^ 52 ≤ R := by
      rw [hRv]
      exact roundPos_gt_one hinv
    have hvv := fl64_eq_some hv
    have hneg : ¬ (0 ≤ 1 - R) := by
      have : (0 : ℚ) < 1 / 2 ^ 52 := by norm_num
      linarith
    unfold round64 at hvv
    rw [if_neg hneg] at hvv
    have hpos : (1 : ℚ) / 2 ^ 52 ≤ roundPos (-(1 - R)) := by
      have := roundPos_mono (by norm_num : (0 : ℚ) ≤ 1 / 2 ^ 52)
        (by linarith : (1 : ℚ) / 2 ^ 52 ≤ -(1 - R))
      rwa [roundPos_eps] at this
    have : (0 : ℚ) < 1 / 2 ^ 52 := by norm_num
    linarith

theorem F64.add_eq_some {a b : F64} {y : ℚ} (h : F64.add a b = some y) :
    ∃ x, y = round64 x := by
  cases a with
  | none => simp [F64.add] at h
  | some p =>
    cases b with
    | none => simp [F64.add] at h
    | some q => exact ⟨p + q, fl64_eq_some h⟩

/-- The sum `calculateReliabilitySequential` returns in double arithmetic is the
start value or a rounded value. -/
theorem sequential64_rounded (cs : List RadioComponent) :
    ∀ (start : F64) (S : ℚ),
      cs.foldl (fun totalFailureRate component =>
          F64.add totalFailureRate (fl64 component.failureRate)) start = some S →
      start = some S ∨ ∃ x, S = round64 x := by
  induction cs with
  | nil => intro start S h; exact Or.inl h
  | cons c rest ih =>
    intro start S h
    rw [List.foldl_cons] at h
    rcases ih _ S h with h1 | h2
    · exact Or.inr (F64.add_eq_some h1)
    · exact Or.inr h2

/-! ## Helper lemmas: divisors in double arithmetic -/

theorem roundPos_tiny : roundPos (1 / 2 ^ 1024) = 1 / 2 ^ 1024 := by decide!

theorem fl64_abs_lt {x y : ℚ} (h : fl64 x = some y) : |y| < 2 ^ 1024 := by
  unfold fl64 at h
  split at h
  · next hlt =>
    cases Option.some.inj h
    exact hlt
  · cases h

/-- A positive value above `2 ^ (-1024)` does not round to 0. -/
theorem roundPos_pos_of_gt {y : ℚ} (h : 1 / 2 ^ 1024 < y) : 0 < roundPos y := by
  have := roundPos_mono (by positivity : (0 : ℚ) ≤ 1 / 2 ^ 1024) (le_of_lt h)
  rw [roundPos_tiny] at this
  have hp : (0 : ℚ) < 1 / 2 ^ 1024 := by positivity
  linarith

/-- The reciprocal of a finite double that is not 0 does not round to 0. -/
theorem round64_inv_ne_zero {S : ℚ} (hne : S ≠ 0) (hfin : |S| < 2 ^ 1024) :
    round64 (1 / S) ≠ 0 := by
  rcases lt_or_gt_of_ne hne with hneg | hpos
  · have hS : -S < 2 ^ 1024 := by rwa [abs_of_neg hneg] at hfin
    have hinv : 1 / S < 0 := one_div_neg.mpr hneg
    unfold round64
    rw [if_neg (not_le.mpr hinv)]
    have hgt : (1 : ℚ) / 2 ^ 1024 < -(1 / S) := by
      have h1 : -(1 / S) = 1 / (-S) := by rw [one_div, one_div, inv_neg]
      rw [h1]
      exact one_div_lt_one_div_of_lt (by linarith) hS
    have := roundPos_pos_of_gt hgt
    linarith
  · have hS : S < 2 ^ 1024 := by rwa [abs_of_pos hpos] at hfin
    have hinv : 0 ≤ 1 / S := le_of_lt (one_div_pos.mpr hpos)
    rw [round64_of_nonneg hinv]
    have hgt : (1 : ℚ) / 2 ^ 1024 < 1 / S := one_div_lt_one_div_of_lt hpos hS
    exact ne_of_gt (roundPos_pos_of_gt hgt)

theorem sequential64_finite (s : Scheme) (S : ℚ)
    (h : s.calculateReliabilitySequential64 = some S) : |S| < 2 ^ 1024 := by
  unfold Scheme.calculateReliabilitySequential64 at h
  rcases s.components.eq_nil_or_concat with hnil | ⟨cs, c, hcs⟩
  · rw [hnil] at h
    cases Option.some.inj h
    norm_num
  · rw [hcs, List.concat_eq_append, List.foldl_append, List.foldl_cons, List.foldl_nil] at h
    generalize List.foldl (fun totalFailureRate component =>
      F64.add totalFailureRate (fl64 component.failureRate)) (some 0) cs = a at h
    cases a with
    | none => simp [F64.add] at h
    | some p =>
      cases hb : fl64 c.failureRate with
      | none => rw [hb] at h; simp [F64.add] at h
      | some q =>
        rw [hb] at h
        exact fl64_abs_lt h

/-- In double arithmetic the reliability `1 / S` of choice 1 is not 0 when the sum
`S` is a finite double other than 0. -/
theorem series64_reliability_ne_zero (s : Scheme) (S : ℚ)
    (h : s.calculateReliabilitySequential64 = some S) (hne : S ≠ 0) :
    F64.div (some 1) (some S) ≠ some 0 := by
  intro hc
  simp only [F64.div, if_neg hne] at hc
  have := fl64_eq_some hc
  exact round64_inv_ne_zero hne (sequential64_finite s S h) this.symm

/-- In double arithmetic the count of a scheme with a component is not 0. -/
theorem count64_ne_zero (s : Scheme) (hne : s.components ≠ []) :
    fl64 (s.components.length : ℚ) ≠ some 0 := by
  intro hc
  have h1 : (1 : ℚ) ≤ (s.components.length : ℚ) := by
    have : 1 ≤ s.components.length := List.length_pos.mpr hne
    exact_mod_cast this
  have h0 : (0 : ℚ) ≤ (s.components.length : ℚ) := by linarith
  have h2 := fl64_eq_some hc
  rw [round64_of_nonneg h0] at h2
  have h3 := roundPos_mono (by norm_num : (0 : ℚ) ≤ 1) h1
  rw [roundPos_one] at h3
  linarith

/-! ## Theorems -/

/-- C1: `calculateReliabilitySequential` returns the sum of the `failureRate`
fields of the stored components, whatever the scheme's name and table; it
returns 0 when no component is stored, and 3/10 for two components whose failure
rates are 1/10 and 2/10. -/
theorem sequential_is_sum_of_failure_rates (s : Scheme) (c₁ c₂ : RadioComponent) :
    s.calculateReliabilitySequential = (s.components.map (fun c => c.failureRate)).sum
    ∧ Scheme.calculateReliabilitySequential { s with components := [] } = 0
    ∧ Scheme.calculateReliabilitySequential
        { s with components := [{ c₁ with failureRate := 1 / 10 },
                                { c₂ with failureRate := 2 / 10 }] } = 3 / 10 := by
  refine ⟨sequential_eq_sum s, ?_, ?_⟩
  · simp [Scheme.calculateReliabilitySequential]
  · simp [Scheme.calculateReliabilitySequential]
    norm_num

/-- C2: `calculateReliabilityParallel` returns 1 minus the product of
`1 - failureRate` over the stored components; it returns 0 when no component is
stored, and 28/100 for two components whose failure rates are 1/10 and 2/10. -/
theorem parallel_is_one_minus_product (s : Scheme) (c₁ c₂ : RadioComponent) :
    s.calculateReliabilityParallel
      = 1 - (s.components.map (fun c => 1 - c.failureRate)).prod
    ∧ Scheme.calculateReliabilityParallel { s with components := [] } = 0
    ∧ Scheme.calculateReliabilityParallel
        { s with components := [{ c₁ with failureRate := 1 / 10 },
                                { c₂ with failureRate := 2 / 10 }] } = 28 / 100 := by
  refine ⟨parallel_eq_prod s, ?_, ?_⟩
  · simp [Scheme.calculateReliabilityParallel]
  · simp [Scheme.calculateReliabilityParallel]
    norm_num

/-- C3: when at least one component is stored and every stored `failureRate`
lies in [0,1], the result of `calculateReliabilityParallel` lies in [0,1]. -/
theorem parallel_in_unit_interval (s : Scheme) (_hne : s.components ≠ [])
    (h : ∀ c ∈ s.components, 0 ≤ c.failureRate ∧ c.failureRate ≤ 1) :
    0 ≤ s.calculateReliabilityParallel ∧ s.calculateReliabilityParallel ≤ 1 := by
  have hp := prod_mem_unit (s.components.map (fun c => 1 - c.failureRate)) (by
    intro x hx
    obtain ⟨c, hc, rfl⟩ := List.mem_map.mp hx
    have := h c hc
    constructor <;> linarith [this.1, this.2])
  rw [parallel_eq_prod]
  constructor <;> linarith [hp.1, hp.2]

/-- C4: `calculateReliabilitySequential` does not depend on the order of the
stored components: two schemes whose component lists are permutations of each
other give the same result. -/
theorem sequential_order_independent (s t : Scheme)
    (h : s.components.Perm t.components) :
    s.calculateReliabilitySequential = t.calculateReliabilitySequential := by
  rw [sequential_eq_sum, sequential_eq_sum]
  exact (h.map _).sum_eq

/-- Witness for C3: the sample scheme, whose failure rates are 1/10 and 2/10. -/
theorem parallel_in_unit_interval_witness :
    (sampleScheme.components ≠ []
      ∧ ∀ c ∈ sampleScheme.components, 0 ≤ c.failureRate ∧ c.failureRate ≤ 1)
    ∧ 0 ≤ sampleScheme.calculateReliabilityParallel
    ∧ sampleScheme.calculateReliabilityParallel ≤ 1 :=
  ⟨⟨by simp [sampleScheme],
    by simp [sampleScheme, sampleR1, sampleR2, Resistor]; norm_num⟩,
   parallel_in_unit_interval sampleScheme (by simp [sampleScheme])
     (by simp [sampleScheme, sampleR1, sampleR2, Resistor]; norm_num)⟩

/-- Witness for C4: the sample scheme and the same scheme with its two components
swapped. -/
theorem sequential_order_independent_witness :
    sampleScheme.components.Perm
        (Scheme.components { sampleScheme with components := [sampleR2, sampleR1] })
    ∧ sampleScheme.calculateReliabilitySequential
        = Scheme.calculateReliabilitySequential
            { sampleScheme with components := [sampleR2, sampleR1] } :=
  ⟨List.Perm.swap sampleR2 sampleR1 [],
   sequential_order_independent sampleScheme
     { sampleScheme with components := [sampleR2, sampleR1] }
     (List.Perm.swap sampleR2 sampleR1 [])⟩

/-- C5: for a bucket count `B > 0` and inserts with non-negative `int` keys into
a fresh `HashTable`, every insert succeeds and the records `output()` visits are,
for `b = 0, 1, ..., B - 1` in that order, the records whose key mod `B` is `b`, in
reverse insertion order; `output()` prints the details of these records in that
order. With `B = 10` and keys 1 then 11, the record with key 11 comes before the
record with key 1. -/
theorem output_bucket_major_reverse_insertion (B : Nat) (hB : 0 < B)
    (ins : List (Int × RadioComponent)) (hk : ∀ p ∈ ins, 0 ≤ p.1 ∧ p.1 < 2 ^ 31)
    (r₁ r₁₁ : RadioComponent) :
    (∃ h, (HashTable.new B).insertAll ins = some h
      ∧ h.visited = (List.range B).flatMap (fun b =>
          ((ins.filter (fun p => decide (p.1 % (B : Int) = (b : Int)))).reverse).map Prod.snd)
      ∧ h.output = ((List.range B).flatMap (fun b =>
          ((ins.filter (fun p => decide (p.1 % (B : Int) = (b : Int)))).reverse).map Prod.snd)).map
            RadioComponent.getDetails)
    ∧ (∃ h, (HashTable.new 10).insertAll [(1, r₁), (11, r₁₁)] = some h
      ∧ h.visited = [r₁₁, r₁] ∧ h.output = [r₁₁.getDetails, r₁.getDetails]) := by
  constructor
  · obtain ⟨h, hall, -, hsz, hch, -⟩ :=
      HashTable.insertAll_spec ins (HashTable.new B) (HashTable.new_wf B hB)
    have hv : h.visited = (List.range B).flatMap (fun b =>
        ((ins.filter (fun p => decide (p.1 % (B : Int) = (b : Int)))).reverse).map Prod.snd) := by
      have hsz1 : h.size = B := hsz
      rw [h.visited_eq_of_chains _ hch, hsz1]
      congr 1
      funext b
      rw [HashTable.new_chain, List.append_nil, filter_bucket_congr B b ins hk, List.map_reverse]
    exact ⟨h, hall, hv, by rw [HashTable.output, hv]⟩
  · have h1 : toSizeT 1 = 1 := by decide
    have h11 : toSizeT 11 = 11 := by decide
    refine ⟨⟨[[], [r₁₁, r₁], [], [], [], [], [], [], [], []], 10⟩, ?_, rfl, rfl⟩
    simp [HashTable.insertAll, HashTable.insert, HashTable.new, HashTable.index, h1, h11,
      List.replicate]

/-- Witness for C5: the three sample inserts (keys 1, 11, 2) into a table of 10
buckets. -/
theorem output_bucket_major_reverse_insertion_witness :
    (0 < 10 ∧ ∀ p ∈ sampleInserts, 0 ≤ p.1 ∧ p.1 < 2 ^ 31)
    ∧ ((∃ h, (HashTable.new 10).insertAll sampleInserts = some h
        ∧ h.visited = (List.range 10).flatMap (fun b =>
            ((sampleInserts.filter
                (fun p => decide (p.1 % ((10 : Nat) : Int) = (b : Int)))).reverse).map Prod.snd)
        ∧ h.output = ((List.range 10).flatMap (fun b =>
            ((sampleInserts.filter
                (fun p => decide (p.1 % ((10 : Nat) : Int) = (b : Int)))).reverse).map Prod.snd)).map
              RadioComponent.getDetails)
      ∧ (∃ h, (HashTable.new 10).insertAll [(1, sampleR1), (11, sampleR2)] = some h
        ∧ h.visited = [sampleR2, sampleR1]
        ∧ h.output = [sampleR2.getDetails, sampleR1.getDetails])) :=
  ⟨⟨by decide, by simp [sampleInserts]⟩,
   output_bucket_major_reverse_insertion 10 (by decide) sampleInserts (by simp [sampleInserts])
     sampleR1 sampleR2⟩

/-- C6: store invariant. After any sequence of `addComponent` calls on a fresh
scheme with `B > 0` buckets, every call having succeeded: the flat sequence is
exactly the inserted records in insertion order; the chain of each bucket is
exactly the records whose key was sent to that bucket, latest first; the records
the store output visits are a permutation of the flat sequence, and so are the
printed lines. When the inserted records are pairwise distinct, each of them
occurs exactly once in the flat sequence, exactly once in the chain of its bucket
and in no other chain. For a non-negative `int` key the bucket is the key mod
`B`. -/
theorem store_invariant (schemeName : String) (B : Nat) (hB : 0 < B)
    (ins : List (Int × RadioComponent)) :
    ∃ s, (Scheme.new schemeName B).addAll ins = some s
      ∧ s.components = ins.map Prod.snd
      ∧ (∀ b, s.componentTable.table.getD b []
          = ((ins.filter (fun p => decide (s.componentTable.index p.1 = b))).map Prod.snd).reverse)
      ∧ s.componentTable.visited.Perm s.components
      ∧ s.displayComponents.2.Perm s.displayConnectionScheme
      ∧ ((ins.map Prod.snd).Nodup → ∀ p ∈ ins,
            s.components.count p.2 = 1
          ∧ (s.componentTable.table.getD (s.componentTable.index p.1) []).count p.2 = 1
          ∧ ∀ b, b ≠ s.componentTable.index p.1 → p.2 ∉ s.componentTable.table.getD b [])
      ∧ (∀ p ∈ ins, 0 ≤ p.1 → p.1 < 2 ^ 31 →
          ((s.componentTable.index p.1 : Nat) : Int) = p.1 % (B : Int)) := by
  obtain ⟨s, hs, hcomp, hch1, hperm1, hidx⟩ := store_invariant_aux schemeName B hB ins
  refine ⟨s, hs, hcomp, hch1, hperm1, ?_, ?_, ?_⟩
  · have := hperm1.map RadioComponent.getDetails
    simpa [Scheme.displayComponents, Scheme.displayConnectionScheme, HashTable.output,
      RadioComponent.getDetails] using this
  · intro hnd p hp
    have hmem : p.2 ∈ ins.map Prod.snd := List.mem_map.mpr ⟨p, hp, rfl⟩
    refine ⟨?_, ?_, ?_⟩
    · rw [hcomp]
      exact List.count_eq_one_of_mem hnd hmem
    · rw [hch1]
      apply List.count_eq_one_of_mem
      · exact List.nodup_reverse.mpr
          ((List.Sublist.map Prod.snd (List.filter_sublist ins)).nodup hnd)
      · exact List.mem_reverse.mpr
          (List.mem_map.mpr ⟨p, List.mem_filter.mpr ⟨hp, by simp⟩, rfl⟩)
    · intro b hb hin
      rw [hch1] at hin
      obtain ⟨q, hq, hq2⟩ := List.mem_map.mp (List.mem_reverse.mp hin)
      obtain ⟨hq1, hqb⟩ := List.mem_filter.mp hq
      have hqp : q = p := List.inj_on_of_nodup_map hnd hq1 hp hq2
      subst hqp
      exact hb (of_decide_eq_true hqb).symm
  · intro p _ h0 h1
    rw [hidx]
    exact (HashTable.new B).index_of_nonneg p.1 h0 h1

/-- Witness for C6: the three sample inserts into the scheme `main` creates. -/
theorem store_invariant_witness :
    0 < 10 ∧ (sampleInserts.map Prod.snd).Nodup
    ∧ ∃ s, (Scheme.new "Моя электронная схема" 10).addAll sampleInserts = some s
      ∧ s.components = sampleInserts.map Prod.snd
      ∧ (∀ b, s.componentTable.table.getD b []
          = ((sampleInserts.filter
                (fun p => decide (s.componentTable.index p.1 = b))).map Prod.snd).reverse)
      ∧ s.componentTable.visited.Perm s.components
      ∧ s.displayComponents.2.Perm s.displayConnectionScheme
      ∧ ((sampleInserts.map Prod.snd).Nodup → ∀ p ∈ sampleInserts,
            s.components.count p.2 = 1
          ∧ (s.componentTable.table.getD (s.componentTable.index p.1) []).count p.2 = 1
          ∧ ∀ b, b ≠ s.componentTable.index p.1 → p.2 ∉ s.componentTable.table.getD b [])
      ∧ (∀ p ∈ sampleInserts, 0 ≤ p.1 → p.1 < 2 ^ 31 →
          ((s.componentTable.index p.1 : Nat) : Int) = p.1 % ((10 : Nat) : Int)) :=
  ⟨by decide,
   by simp [sampleInserts, sampleR1, sampleR2, sampleC3, Resistor, Capacitor],
   store_invariant "Моя электронная схема" 10 (by decide) sampleInserts⟩

/-- C7: in `calculateAndDisplayReliability`, choice 1 prints as reliability
`1 / calculateReliabilitySequential()` (not a real number when that sum is 0) and
choice 2 prints `calculateReliabilityParallel()`; for two components with failure
rates 1/10 and 2/10 these are 10/3 and 28/100. -/
theorem reliability_by_topology (s : Scheme) (c₁ c₂ : RadioComponent) :
    (s.calculateAndDisplayReliability 1).2.take 2
      = [Line.prompt, Line.sequentialReliability
          (if s.calculateReliabilitySequential = 0 then none
           else some (1 / s.calculateReliabilitySequential))]
    ∧ (s.calculateAndDisplayReliability 2).2.take 2
      = [Line.prompt, Line.parallelReliability (some s.calculateReliabilityParallel)]
    ∧ (Scheme.calculateAndDisplayReliability
          { s with components := [{ c₁ with failureRate := 1 / 10 },
                                  { c₂ with failureRate := 2 / 10 }] } 1).2.take 2
      = [Line.prompt, Line.sequentialReliability (some (10 / 3))]
    ∧ (Scheme.calculateAndDisplayReliability
          { s with components := [{ c₁ with failureRate := 1 / 10 },
                                  { c₂ with failureRate := 2 / 10 }] } 2).2.take 2
      = [Line.prompt, Line.parallelReliability (some (28 / 100))] := by
  refine ⟨?_, ?_, ?_, ?_⟩
  · simp only [Scheme.calculateAndDisplayReliability, Val.div, if_true, List.cons_append,
      List.nil_append, List.take_succ_cons, List.take_zero]
  · simp [Scheme.calculateAndDisplayReliability]
  · simp [Scheme.calculateAndDisplayReliability, Val.div, Scheme.calculateReliabilitySequential]
    norm_num
  · simp [Scheme.calculateAndDisplayReliability, Scheme.calculateReliabilityParallel]
    norm_num

/-- C8: for a scheme with at least one component and a choice of 1 or 2, with `R`
the reliability printed, the five figures printed after it are: failure
probability `1 - R`; density of failure `(1 - R) / R` (not a real number when `R`
is 0 or not a real number); failure intensity `calculateReliabilitySequential()`,
whatever the choice; average MTBF the sum of `MTBF` over the number of components;
gamma-percent MTBF the sum of `MTBF` times `R`. -/
theorem derived_metrics_formulas (s : Scheme) (hne : s.components ≠ []) (connectionType : Int)
    (hct : connectionType = 1 ∨ connectionType = 2) :
    ∃ R : Val,
      (s.calculateAndDisplayReliability connectionType).2.take 2
        = [Line.prompt, if connectionType = 1 then Line.sequentialReliability R
                        else Line.parallelReliability R]
      ∧ (s.calculateAndDisplayReliability connectionType).2.drop 2
        = [Line.failureProbability (R.map (fun r => 1 - r)),
           Line.densityOfFailure (R.bind (fun r => if r = 0 then none else some ((1 - r) / r))),
           Line.intensityOfFailure (some s.calculateReliabilitySequential),
           Line.averageMTBF
             (some ((s.components.map (fun c => c.MTBF)).sum / (s.components.length : ℚ))),
           Line.gammaPercentMTBF
             (R.map (fun r => (s.components.map (fun c => c.MTBF)).sum * r))] := by
  have hlen : (s.components.length : ℚ) ≠ 0 := by
    have : s.components.length ≠ 0 := fun h => hne (List.length_eq_zero.mp h)
    exact_mod_cast this
  have hm : ∀ R : Val, s.derivedMetrics R
      = [Line.failureProbability (R.map (fun r => 1 - r)),
         Line.densityOfFailure (R.bind (fun r => if r = 0 then none else some ((1 - r) / r))),
         Line.intensityOfFailure (some s.calculateReliabilitySequential),
         Line.averageMTBF
           (some ((s.components.map (fun c => c.MTBF)).sum / (s.components.length : ℚ))),
         Line.gammaPercentMTBF
           (R.map (fun r => (s.components.map (fun c => c.MTBF)).sum * r))] := by
    intro R
    cases R with
    | none => simp [Scheme.derivedMetrics, Val.sub, Val.div, Val.mul, hlen, totalMTBF_eq_sum]
    | some r => simp [Scheme.derivedMetrics, Val.sub, Val.div, Val.mul, hlen, totalMTBF_eq_sum]
  rcases hct with h | h
  · subst h
    refine ⟨Val.div (some 1) (some s.calculateReliabilitySequential), ?_, ?_⟩
    · simp [Scheme.calculateAndDisplayReliability]
    · simp only [Scheme.calculateAndDisplayReliability, if_true, List.cons_append,
        List.nil_append, List.drop_succ_cons, List.drop_zero]
      exact hm _
  · subst h
    refine ⟨some s.calculateReliabilityParallel, ?_, ?_⟩
    · simp [Scheme.calculateAndDisplayReliability]
    · have h21 : ¬ ((2 : Int) = 1) := by decide
      simp only [Scheme.calculateAndDisplayReliability, h21, if_false, if_true, List.cons_append,
        List.nil_append, List.drop_succ_cons, List.drop_zero]
      exact hm _

/-- Witness for C8: the sample scheme with the series choice. -/
theorem derived_metrics_formulas_witness :
    (sampleScheme.components ≠ [] ∧ ((1 : Int) = 1 ∨ (1 : Int) = 2))
    ∧ ∃ R : Val,
      (sampleScheme.calculateAndDisplayReliability 1).2.take 2
        = [Line.prompt, if (1 : Int) = 1 then Line.sequentialReliability R
                        else Line.parallelReliability R]
      ∧ (sampleScheme.calculateAndDisplayReliability 1).2.drop 2
        = [Line.failureProbability (R.map (fun r => 1 - r)),
           Line.densityOfFailure (R.bind (fun r => if r = 0 then none else some ((1 - r) / r))),
           Line.intensityOfFailure (some sampleScheme.calculateReliabilitySequential),
           Line.averageMTBF
             (some ((sampleScheme.components.map (fun c => c.MTBF)).sum
                / (sampleScheme.components.length : ℚ))),
           Line.gammaPercentMTBF
             (R.map (fun r => (sampleScheme.components.map (fun c => c.MTBF)).sum * r))] :=
  ⟨⟨by simp [sampleScheme], Or.inl rfl⟩,
   derived_metrics_formulas sampleScheme (by simp [sampleScheme]) 1 (Or.inl rfl)⟩

/-- C9: for a choice other than 1 and 2, `calculateAndDisplayReliability` writes
the prompt and the error message and nothing else, and leaves the scheme as it
was. For choice 1 and for choice 2 it leaves the scheme as it was too and writes
the prompt, the reliability `R` and the five derived figures computed from it:
`1 - R`, `(1 - R) / R`, the sequential sum, the sum of `MTBF` over the number of
components, and the sum of `MTBF` times `R` (a quotient whose divisor is 0 is not
a real number). -/
theorem invalid_choice_aborts (s : Scheme) (connectionType : Int)
    (h1 : connectionType ≠ 1) (h2 : connectionType ≠ 2) :
    s.calculateAndDisplayReliability connectionType = (s, [Line.prompt, Line.invalidChoice])
    ∧ (∃ R : Val,
        R = (if s.calculateReliabilitySequential = 0 then none
             else some (1 / s.calculateReliabilitySequential))
        ∧ s.calculateAndDisplayReliability 1
          = (s, [Line.prompt, Line.sequentialReliability R,
                 Line.failureProbability (R.map (fun r => 1 - r)),
                 Line.densityOfFailure
                   (R.bind (fun r => if r = 0 then none else some ((1 - r) / r))),
                 Line.intensityOfFailure (some s.calculateReliabilitySequential),
                 Line.averageMTBF
                   (if (s.components.length : ℚ) = 0 then none
                    else some ((s.components.map (fun c => c.MTBF)).sum
                      / (s.components.length : ℚ))),
                 Line.gammaPercentMTBF
                   (R.map (fun r => (s.components.map (fun c => c.MTBF)).sum * r))]))
    ∧ (∃ R : Val,
        R = some s.calculateReliabilityParallel
        ∧ s.calculateAndDisplayReliability 2
          = (s, [Line.prompt, Line.parallelReliability R,
                 Line.failureProbability (R.map (fun r => 1 - r)),
                 Line.densityOfFailure
                   (R.bind (fun r => if r = 0 then none else some ((1 - r) / r))),
                 Line.intensityOfFailure (some s.calculateReliabilitySequential),
                 Line.averageMTBF
                   (if (s.components.length : ℚ) = 0 then none
                    else some ((s.components.map (fun c => c.MTBF)).sum
                      / (s.components.length : ℚ))),
                 Line.gammaPercentMTBF
                   (R.map (fun r => (s.components.map (fun c => c.MTBF)).sum * r))])) := by
  refine ⟨?_, ⟨_, rfl, ?_⟩, ⟨_, rfl, ?_⟩⟩
  · simp [Scheme.calculateAndDisplayReliability, h1, h2]
  · have hdiv : Val.div (some 1) (some s.calculateReliabilitySequential)
        = (if s.calculateReliabilitySequential = 0 then none
           else some (1 / s.calculateReliabilitySequential)) := rfl
    rw [Scheme.run_series, hdiv, Scheme.derivedMetrics_explicit]
  · rw [Scheme.run_parallel, Scheme.derivedMetrics_explicit]

/-- Witness for C9: the sample scheme with choice 3. -/
theorem invalid_choice_aborts_witness :
    ((3 : Int) ≠ 1 ∧ (3 : Int) ≠ 2)
    ∧ sampleScheme.calculateAndDisplayReliability 3
        = (sampleScheme, [Line.prompt, Line.invalidChoice])
    ∧ (∃ R : Val,
        R = (if sampleScheme.calculateReliabilitySequential = 0 then none
             else some (1 / sampleScheme.calculateReliabilitySequential))
        ∧ sampleScheme.calculateAndDisplayReliability 1
          = (sampleScheme, [Line.prompt, Line.sequentialReliability R,
                 Line.failureProbability (R.map (fun r => 1 - r)),
                 Line.densityOfFailure
                   (R.bind (fun r => if r = 0 then none else some ((1 - r) / r))),
                 Line.intensityOfFailure (some sampleScheme.calculateReliabilitySequential),
                 Line.averageMTBF
                   (if (sampleScheme.components.length : ℚ) = 0 then none
                    else some ((sampleScheme.components.map (fun c => c.MTBF)).sum
                      / (sampleScheme.components.length : ℚ))),
                 Line.gammaPercentMTBF
                   (R.map (fun r => (sampleScheme.components.map (fun c => c.MTBF)).sum * r))]))
    ∧ (∃ R : Val,
        R = some sampleScheme.calculateReliabilityParallel
        ∧ sampleScheme.calculateAndDisplayReliability 2
          = (sampleScheme, [Line.prompt, Line.parallelReliability R,
                 Line.failureProbability (R.map (fun r => 1 - r)),
                 Line.densityOfFailure
                   (R.bind (fun r => if r = 0 then none else some ((1 - r) / r))),
                 Line.intensityOfFailure (some sampleScheme.calculateReliabilitySequential),
                 Line.averageMTBF
                   (if (sampleScheme.components.length : ℚ) = 0 then none
                    else some ((sampleScheme.components.map (fun c => c.MTBF)).sum
                      / (sampleScheme.components.length : ℚ))),
                 Line.gammaPercentMTBF
                   (R.map (fun r => (sampleScheme.components.map (fun c => c.MTBF)).sum * r))])) :=
  ⟨⟨by decide, by decide⟩, invalid_choice_aborts sampleScheme 3 (by decide) (by decide)⟩

/-- C10: `inputComponent` on a count `N` and `N` entries, starting from a fresh
scheme with `B > 0` buckets, returns a scheme whose stored components are the
records built from the entries with a recognised selector, in input order: their
number is the number of such entries, at most `N`, and each has the kind that
goes with its selector. With `N = 1` and selector "9" nothing is stored and the
store output is empty. -/
theorem unknown_selector_stores_nothing (schemeName : String) (B : Nat) (hB : 0 < B)
    (entries : List Entry) (e : Entry) :
    (∃ s, (Scheme.new schemeName B).inputComponent (entries.length : Int) entries = some s
      ∧ s.components = entries.filterMap Entry.makeComponent
      ∧ s.components.length = (entries.filter (fun e => recognised e.componentType)).length
      ∧ s.components.length ≤ entries.length
      ∧ s.components.map (fun c => c.kind.selector)
          = ((entries.map (fun e => e.componentType)).filter recognised).map some
      ∧ s.componentTable.visited.Perm s.components)
    ∧ (Scheme.new schemeName B).inputComponent 1 [{ e with componentType := "9" }]
        = some (Scheme.new schemeName B)
    ∧ (Scheme.new schemeName B).components = []
    ∧ (Scheme.new schemeName B).displayComponents = (schemeName, []) := by
  refine ⟨?_, ?_, rfl, ?_⟩
  · obtain ⟨s, hs, hcomp, -, hperm, -⟩ :=
      store_invariant_aux schemeName B hB (keyedRecords 0 entries)
    have hrun : (Scheme.new schemeName B).inputComponent (entries.length : Int) entries
        = some s := by
      simp only [Scheme.inputComponent, Int.toNat_ofNat, List.take_length]
      rw [Scheme.inputLoop_eq_addAll]
      exact hs
    have hc : s.components = entries.filterMap Entry.makeComponent := by
      rw [hcomp, keyedRecords_snd]
    refine ⟨s, hrun, hc, ?_, ?_, ?_, hperm⟩
    · rw [hc, filterMap_makeComponent_length]
    · rw [hc]
      exact List.length_filterMap_le _ _
    · rw [hc, filterMap_makeComponent_selector]
  · have h9 : Entry.makeComponent { e with componentType := "9" } = none := by
      simp [Entry.makeComponent]
    have h1 : (1 : Int).toNat = 1 := rfl
    simp [Scheme.inputComponent, h1, Scheme.inputLoop, h9]
  · have hv : (HashTable.new B).visited = [] := by
      rw [(HashTable.new B).visited_eq_of_chains (fun _ => []) (HashTable.new_chain B)]
      simp
    simp [Scheme.displayComponents, Scheme.new, HashTable.output, hv]

/-- Witness for C10: two entries, selectors "1" and "9", into the scheme `main`
creates. -/
theorem unknown_selector_stores_nothing_witness :
    0 < 10
    ∧ (∃ s, myScheme.inputComponent (sampleEntries.length : Int) sampleEntries = some s
      ∧ s.components = sampleEntries.filterMap Entry.makeComponent
      ∧ s.components.length
          = (sampleEntries.filter (fun e => recognised e.componentType)).length
      ∧ s.components.length ≤ sampleEntries.length
      ∧ s.components.map (fun c => c.kind.selector)
          = ((sampleEntries.map (fun e => e.componentType)).filter recognised).map some
      ∧ s.componentTable.visited.Perm s.components)
    ∧ myScheme.inputComponent 1 [{ sampleEntry9 with componentType := "9" }] = some myScheme
    ∧ myScheme.components = []
    ∧ myScheme.displayComponents = ("Моя электронная схема", []) :=
  ⟨by decide,
   unknown_selector_stores_nothing "Моя электронная схема" 10 (by decide) sampleEntries
     sampleEntry9⟩

/-- Counterexample for C11: on an entry with the unknown selector "9" followed
by a resistor entry, one record is stored and the key it is added with is 2, not
1; it ends up in bucket 2 of the table of `main`, bucket 1 staying empty. So the
keys are not always 1, ..., M. -/
theorem keys_not_sequential_counterexample :
    (¬ ∀ entries : List Entry, (keyedRecords 0 entries).map Prod.fst
        = (List.range (entries.filter (fun e => recognised e.componentType)).length).map
            (fun (j : Nat) => (j : Int) + 1))
    ∧ (keyedRecords 0 sampleEntriesSkip).map Prod.fst = [2]
    ∧ (myScheme.inputComponent 2 sampleEntriesSkip).map
        (fun s => (s.componentTable.table.getD 1 [], s.componentTable.table.getD 2 []))
      = some ([], [Resistor 100 (1 / 10) (9 / 10) (1 / 100) "Резистор" 220 220 5]) := by
  have hk : keyedRecords 0 sampleEntriesSkip
      = [(2, Resistor 100 (1 / 10) (9 / 10) (1 / 100) "Резистор" 220 220 5)] := by
    simp [keyedRecords, sampleEntriesSkip, sampleEntry9, sampleEntry1, Entry.makeComponent]
  have h2 : toSizeT 2 = 2 := by decide
  refine ⟨?_, by rw [hk]; rfl, ?_⟩
  · intro h
    have h1 := h sampleEntriesSkip
    rw [hk] at h1
    simp [sampleEntriesSkip, sampleEntry9, sampleEntry1, recognised, List.range_succ] at h1
  · have ht : (2 : Int).toNat = 2 := rfl
    simp only [Scheme.inputComponent, ht]
    rw [show List.take 2 sampleEntriesSkip = sampleEntriesSkip from rfl,
      Scheme.inputLoop_eq_addAll, hk]
    simp [Scheme.addAll, Scheme.addComponent, HashTable.insert, myScheme, Scheme.new,
      HashTable.new, HashTable.index, h2, List.replicate]

/-- C11 (amended): `inputComponent` makes, in input order, one `addComponent` call
for each entry with a recognised selector, and the key of the call is the 1-based
position of that entry among all the entries, an entry with an unrecognised
selector using up its position. The keys are therefore strictly increasing and
lie between 1 and `N`. -/
theorem keys_are_entry_positions (s : Scheme) (entries : List Entry) :
    s.inputComponent (entries.length : Int) entries = s.addAll (keyedRecords 0 entries)
    ∧ (keyedRecords 0 entries).map Prod.snd = entries.filterMap Entry.makeComponent
    ∧ (keyedRecords 0 entries).map Prod.fst
        = ((entries.enum).filter (fun p => recognised p.2.componentType)).map
            (fun (p : Nat × Entry) => (p.1 : Int) + 1)
    ∧ ((keyedRecords 0 entries).map Prod.fst).Pairwise (fun a b => a < b)
    ∧ (∀ k ∈ (keyedRecords 0 entries).map Prod.fst, 1 ≤ k ∧ k ≤ (entries.length : Int)) := by
  refine ⟨?_, keyedRecords_snd entries 0, keyedRecords_fst entries 0,
    (keyedRecords_keys_bounds entries 0).2, ?_⟩
  · simp only [Scheme.inputComponent, Int.toNat_ofNat, List.take_length]
    exact Scheme.inputLoop_eq_addAll entries s 0
  · intro k hk
    have := (keyedRecords_keys_bounds entries 0).1 k hk
    push_cast at this
    omega

/-- Counterexample for C12: the scheme holding one capacitor whose failure rate
is 0 is not empty, yet with choice 1 the sum that 1 is divided by is 0, and with
choice 2 the reliability that the failure probability is divided by is 0. -/
theorem nonempty_not_sufficient_counterexample :
    (¬ ∀ s : Scheme, s.components ≠ [] → ∀ connectionType : Int,
        connectionType = 1 ∨ connectionType = 2 → (some 0 : Val) ∉ s.divisors connectionType)
    ∧ sampleZeroScheme.components ≠ []
    ∧ sampleZeroScheme.divisors 1 = [some 0, none, some 1]
    ∧ sampleZeroScheme.divisors 2 = [some 0, some 1] := by
  have h1 : sampleZeroScheme.divisors 1 = [some 0, none, some 1] := by
    simp [Scheme.divisors_series, sampleZeroScheme, Scheme.calculateReliabilitySequential,
      sampleC3, Capacitor]
  have h2 : sampleZeroScheme.divisors 2 = [some 0, some 1] := by
    simp [Scheme.divisors_parallel, sampleZeroScheme, Scheme.calculateReliabilityParallel,
      sampleC3, Capacitor]
  have hne : sampleZeroScheme.components ≠ [] := by simp [sampleZeroScheme]
  refine ⟨?_, hne, h1, h2⟩
  intro h
  have := h sampleZeroScheme hne 1 (Or.inl rfl)
  rw [h1] at this
  simp at this

/-- C12 (amended): for a scheme with at least one component, `components.size()`
is never a zero divisor. In exact arithmetic, with choice 1 no division has a
zero divisor exactly when the total failure rate is not 0, and with choice 2
exactly when `calculateReliabilityParallel()` is not 0; in exactly these cases
every figure printed is a real number. In double arithmetic the count is not 0
either, and with choice 1 the reliability `1 / S` is not 0 when the sum `S` is a
finite double other than 0. -/
theorem zero_divisor_conditions (s : Scheme) (hne : s.components ≠ []) :
    (s.components.length : ℚ) ≠ 0
    ∧ ((some 0 : Val) ∉ s.divisors 1 ↔ s.calculateReliabilitySequential ≠ 0)
    ∧ ((some 0 : Val) ∉ s.divisors 2 ↔ s.calculateReliabilityParallel ≠ 0)
    ∧ (s.calculateReliabilitySequential ≠ 0 ↔
        ∃ r m₁ m₂ m₃ m₄ m₅ : ℚ, s.calculateAndDisplayReliability 1
          = (s, [Line.prompt, Line.sequentialReliability (some r),
                 Line.failureProbability (some m₁), Line.densityOfFailure (some m₂),
                 Line.intensityOfFailure (some m₃), Line.averageMTBF (some m₄),
                 Line.gammaPercentMTBF (some m₅)]))
    ∧ (s.calculateReliabilityParallel ≠ 0 ↔
        ∃ r m₁ m₂ m₃ m₄ m₅ : ℚ, s.calculateAndDisplayReliability 2
          = (s, [Line.prompt, Line.parallelReliability (some r),
                 Line.failureProbability (some m₁), Line.densityOfFailure (some m₂),
                 Line.intensityOfFailure (some m₃), Line.averageMTBF (some m₄),
                 Line.gammaPercentMTBF (some m₅)]))
    ∧ fl64 (s.components.length : ℚ) ≠ some 0
    ∧ (∀ S : ℚ, s.calculateReliabilitySequential64 = some S → S ≠ 0 →
        F64.div (some 1) (some S) ≠ some 0) := by
  have hlen := s.length_ne_zero hne
  refine ⟨hlen, ?_, ?_, ?_, ?_, count64_ne_zero s hne,
    fun S h hS => series64_reliability_ne_zero s S h hS⟩
  · rw [Scheme.divisors_series]
    by_cases hS : s.calculateReliabilitySequential = 0
    · simp [hS]
    · have hlen' : ¬ ((0 : ℚ) = (s.components.length : ℚ)) := fun h => hlen h.symm
      have hS' : ¬ ((0 : ℚ) = s.calculateReliabilitySequential) := fun h => hS h.symm
      simp [hS, hS', hlen']
  · rw [Scheme.divisors_parallel]
    by_cases hP : s.calculateReliabilityParallel = 0
    · simp [hP]
    · have hlen' : ¬ ((0 : ℚ) = (s.components.length : ℚ)) := fun h => hlen h.symm
      have hP' : ¬ ((0 : ℚ) = s.calculateReliabilityParallel) := fun h => hP h.symm
      simp [hP, hP', hlen']
  · constructor
    · intro hS
      have hdiv : Val.div (some 1) (some s.calculateReliabilitySequential)
          = some (1 / s.calculateReliabilitySequential) := by
        simp [Val.div, hS]
      have hr : (1 / s.calculateReliabilitySequential) ≠ 0 := one_div_ne_zero hS
      rw [Scheme.run_series, hdiv, s.derivedMetrics_real hne _ hr]
      exact ⟨_, _, _, _, _, _, rfl⟩
    · rintro ⟨r, m₁, m₂, m₃, m₄, m₅, h⟩ hS
      rw [Scheme.run_series] at h
      simp [Val.div, hS] at h
  · constructor
    · intro hP
      rw [Scheme.run_parallel, s.derivedMetrics_real hne _ hP]
      exact ⟨_, _, _, _, _, _, rfl⟩
    · rintro ⟨r, m₁, m₂, m₃, m₄, m₅, h⟩ hP
      rw [Scheme.run_parallel] at h
      simp [Scheme.derivedMetrics, Val.div, Val.sub, hP] at h

/-- Witness for C12 (amended): the sample scheme, whose total failure rate is
3/10 in exact arithmetic and 0.30000000000000004 in double arithmetic. -/
theorem zero_divisor_conditions_witness :
    (sampleScheme.components ≠ []
      ∧ sampleScheme.calculateReliabilitySequential64
          = some (1351079888211149 / 4503599627370496))
    ∧ (sampleScheme.components.length : ℚ) ≠ 0
    ∧ ((some 0 : Val) ∉ sampleScheme.divisors 1 ↔ sampleScheme.calculateReliabilitySequential ≠ 0)
    ∧ ((some 0 : Val) ∉ sampleScheme.divisors 2 ↔ sampleScheme.calculateReliabilityParallel ≠ 0)
    ∧ (sampleScheme.calculateReliabilitySequential ≠ 0 ↔
        ∃ r m₁ m₂ m₃ m₄ m₅ : ℚ, sampleScheme.calculateAndDisplayReliability 1
          = (sampleScheme, [Line.prompt, Line.sequentialReliability (some r),
                 Line.failureProbability (some m₁), Line.densityOfFailure (some m₂),
                 Line.intensityOfFailure (some m₃), Line.averageMTBF (some m₄),
                 Line.gammaPercentMTBF (some m₅)]))
    ∧ (sampleScheme.calculateReliabilityParallel ≠ 0 ↔
        ∃ r m₁ m₂ m₃ m₄ m₅ : ℚ, sampleScheme.calculateAndDisplayReliability 2
          = (sampleScheme, [Line.prompt, Line.parallelReliability (some r),
                 Line.failureProbability (some m₁), Line.densityOfFailure (some m₂),
                 Line.intensityOfFailure (some m₃), Line.averageMTBF (some m₄),
                 Line.gammaPercentMTBF (some m₅)]))
    ∧ fl64 (sampleScheme.components.length : ℚ) ≠ some 0
    ∧ (∀ S : ℚ, sampleScheme.calculateReliabilitySequential64 = some S → S ≠ 0 →
        F64.div (some 1) (some S) ≠ some 0) :=
  ⟨⟨by simp [sampleScheme], by decide!⟩,
   zero_divisor_conditions sampleScheme (by simp [sampleScheme])⟩

/-- C13: with no stored component nothing guards the calculation. The total
failure rate is 0; choice 1 divides 1 by it, choice 2 divides the failure
probability by a reliability of 0, and both divide the sum of `MTBF` by a count of
0; yet both choices go on to print all the figures, those coming from these
divisions not being real numbers. -/
theorem empty_scheme_unguarded (s : Scheme) :
    Scheme.calculateReliabilitySequential { s with components := [] } = 0
    ∧ Scheme.calculateReliabilityParallel { s with components := [] } = 0
    ∧ Scheme.divisors { s with components := [] } 1 = [some 0, none, some 0]
    ∧ Scheme.divisors { s with components := [] } 2 = [some 0, some 0]
    ∧ Scheme.calculateAndDisplayReliability { s with components := [] } 1
        = ({ s with components := [] },
           [Line.prompt, Line.sequentialReliability none, Line.failureProbability none,
            Line.densityOfFailure none, Line.intensityOfFailure (some 0),
            Line.averageMTBF none, Line.gammaPercentMTBF none])
    ∧ Scheme.calculateAndDisplayReliability { s with components := [] } 2
        = ({ s with components := [] },
           [Line.prompt, Line.parallelReliability (some 0), Line.failureProbability (some 1),
            Line.densityOfFailure none, Line.intensityOfFailure (some 0),
            Line.averageMTBF none, Line.gammaPercentMTBF (some 0)]) := by
  have hS : Scheme.calculateReliabilitySequential { s with components := [] } = 0 := by
    simp [Scheme.calculateReliabilitySequential]
  have hP : Scheme.calculateReliabilityParallel { s with components := [] } = 0 := by
    simp [Scheme.calculateReliabilityParallel]
  refine ⟨hS, hP, ?_, ?_, ?_, ?_⟩
  · rw [Scheme.divisors_series, hS]
    simp
  · rw [Scheme.divisors_parallel, hP]
    simp
  · rw [Scheme.run_series, hS]
    simp [Scheme.derivedMetrics, Val.div, Val.sub, Val.mul, hS, Scheme.totalMTBF]
  · rw [Scheme.run_parallel, hP]
    simp [Scheme.derivedMetrics, Val.div, Val.sub, Val.mul, hS, Scheme.totalMTBF]

/-- Counterexample for C14: with 10 buckets the key -1 is sent to bucket 5,
because -1 becomes 2^64 - 1 as a `size_t`, while -1 mod 10 is 9; the record lands
in the chain of bucket 5 and the chain of bucket 9 stays empty. -/
theorem negative_key_bucket_counterexample :
    (¬ ∀ (key : Int) (B : Nat), -2 ^ 31 ≤ key → key < 2 ^ 31 → 0 < B →
        (((HashTable.new B).index key : Nat) : Int) = key % (B : Int))
    ∧ (HashTable.new 10).index (-1) = 5
    ∧ (-1 : Int) % ((10 : Nat) : Int) = 9
    ∧ ((HashTable.new 10).insert (-1) sampleR1).map
        (fun h => (h.table.getD 5 [], h.table.getD 9 [])) = some ([sampleR1], []) := by
  have h5 : (HashTable.new 10).index (-1) = 5 := by decide
  refine ⟨?_, h5, by decide, ?_⟩
  · intro h
    have := h (-1) 10 (by decide) (by decide) (by decide)
    rw [h5] at this
    exact absurd this (by decide)
  · rw [(HashTable.new 10).insert_eq (HashTable.new_wf 10 (by decide)), h5]
    simp [HashTable.new, List.replicate]

/-- C14 (amended): for an `int` key and a table of `B > 0` buckets, `insert`
computes the bucket as the remainder modulo `B` of the key converted to `size_t`,
that is of the key itself when it is not negative and of the key plus 2^64 when it
is negative; the bucket is below `B`, and the record becomes the head of that
bucket's chain. For a key that is not negative this is the key mod `B`. -/
theorem index_is_sizeT_remainder (h : HashTable) (hwf : h.WF) (key : Int)
    (hlo : -2 ^ 31 ≤ key) (hhi : key < 2 ^ 31) (c : RadioComponent) :
    ((h.index key : Nat) : Int) = (if 0 ≤ key then key else key + 2 ^ 64) % (h.size : Int)
    ∧ h.index key < h.size
    ∧ ∃ h1, h.insert key c = some h1
        ∧ h1.table.getD (h.index key) [] = c :: h.table.getD (h.index key) [] := by
  refine ⟨?_, h.index_lt hwf.2 key, _, h.insert_eq hwf key c, ?_⟩
  · unfold HashTable.index
    rw [Int.natCast_mod, toSizeT_cast key hlo hhi]
  · have := h.insert_chain _ hwf key c (h.insert_eq hwf key c) (h.index key)
    simpa using this

/-- Witness for C14 (amended): the key -1 in a fresh table of 10 buckets. -/
theorem index_is_sizeT_remainder_witness :
    ((HashTable.new 10).WF ∧ -2 ^ 31 ≤ (-1 : Int) ∧ (-1 : Int) < 2 ^ 31)
    ∧ ((((HashTable.new 10).index (-1) : Nat) : Int)
        = (if 0 ≤ (-1 : Int) then (-1 : Int) else (-1 : Int) + 2 ^ 64)
            % ((HashTable.new 10).size : Int)
      ∧ (HashTable.new 10).index (-1) < (HashTable.new 10).size
      ∧ ∃ h1, (HashTable.new 10).insert (-1) sampleR1 = some h1
          ∧ h1.table.getD ((HashTable.new 10).index (-1)) []
              = sampleR1 :: (HashTable.new 10).table.getD ((HashTable.new 10).index (-1)) []) :=
  ⟨⟨HashTable.new_wf 10 (by decide), by decide, by decide⟩,
   index_is_sizeT_remainder (HashTable.new 10) (HashTable.new_wf 10 (by decide)) (-1)
     (by decide) (by decide) sampleR1⟩

/-- C15: for a table with `B > 0` buckets, as the constructor and `insert` leave
it, and any key, the index `insert` computes is below `B`, hence inside the
array; `insert` succeeds, puts the new record at the head of that bucket's chain
in front of the previous chain, and leaves every other bucket and the bucket
count as they were. A second `insert` with the same key succeeds as well and
chains in front of the first. -/
theorem insert_in_bounds_and_local (h : HashTable) (hwf : h.WF) (key : Int)
    (c c₂ : RadioComponent) :
    h.index key < h.size
    ∧ h.index key < h.table.length
    ∧ ∃ h1, h.insert key c = some h1
        ∧ h1.size = h.size
        ∧ h1.table.length = h.table.length
        ∧ h1.table.getD (h.index key) [] = c :: h.table.getD (h.index key) []
        ∧ (∀ b, b ≠ h.index key → h1.table.getD b [] = h.table.getD b [])
        ∧ ∃ h2, h1.insert key c₂ = some h2
            ∧ h2.table.getD (h.index key) [] = c₂ :: c :: h.table.getD (h.index key) []
            ∧ (∀ b, b ≠ h.index key → h2.table.getD b [] = h.table.getD b []) := by
  have hlt := h.index_lt hwf.2 key
  obtain ⟨h1, hins⟩ : ∃ h1, h.insert key c = some h1 := ⟨_, h.insert_eq hwf key c⟩
  obtain ⟨hwf1, hsz1⟩ := h.insert_wf h1 hwf key c hins
  have hch1 := h.insert_chain h1 hwf key c hins
  have hidx : h1.index key = h.index key := by
    unfold HashTable.index
    rw [hsz1]
  obtain ⟨h2, hins2⟩ : ∃ h2, h1.insert key c₂ = some h2 := ⟨_, h1.insert_eq hwf1 key c₂⟩
  have hch2 := h1.insert_chain h2 hwf1 key c₂ hins2
  rw [hidx] at hch2
  refine ⟨hlt, by rw [hwf.1]; exact hlt, h1, hins, hsz1,
    h.insert_length h1 hwf key c hins, ?_, ?_, h2, hins2, ?_, ?_⟩
  · rw [hch1 (h.index key), if_pos rfl]
  · intro b hb
    rw [hch1 b, if_neg (fun e => hb e.symm)]
  · rw [hch2 (h.index key), if_pos rfl, hch1 (h.index key), if_pos rfl]
  · intro b hb
    rw [hch2 b, if_neg (fun e => hb e.symm), hch1 b, if_neg (fun e => hb e.symm)]

/-- Witness for C15: two inserts with key 11 into a fresh table of 10 buckets. -/
theorem insert_in_bounds_and_local_witness :
    (HashTable.new 10).WF
    ∧ (HashTable.new 10).index 11 < (HashTable.new 10).size
    ∧ (HashTable.new 10).index 11 < (HashTable.new 10).table.length
    ∧ ∃ h1, (HashTable.new 10).insert 11 sampleR1 = some h1
        ∧ h1.size = (HashTable.new 10).size
        ∧ h1.table.length = (HashTable.new 10).table.length
        ∧ h1.table.getD ((HashTable.new 10).index 11) []
            = sampleR1 :: (HashTable.new 10).table.getD ((HashTable.new 10).index 11) []
        ∧ (∀ b, b ≠ (HashTable.new 10).index 11 →
            h1.table.getD b [] = (HashTable.new 10).table.getD b [])
        ∧ ∃ h2, h1.insert 11 sampleR2 = some h2
            ∧ h2.table.getD ((HashTable.new 10).index 11) []
                = sampleR2 :: sampleR1
                    :: (HashTable.new 10).table.getD ((HashTable.new 10).index 11) []
            ∧ (∀ b, b ≠ (HashTable.new 10).index 11 →
                h2.table.getD b [] = (HashTable.new 10).table.getD b []) :=
  ⟨HashTable.new_wf 10 (by decide),
   insert_in_bounds_and_local (HashTable.new 10) (HashTable.new_wf 10 (by decide)) 11
     sampleR1 sampleR2⟩

/-- C16: when `N` records are added to a fresh scheme with keys 1, ..., N and `N`
is below the bucket count, the store output lists them in insertion order, as the
connection scheme does. When `N` is the bucket count and at least 2, the store
output lists the record with key `N` first and then the others in insertion
order, which is not the insertion order when the records are distinct. -/
theorem store_order_vs_insertion_order (schemeName : String) (B : Nat)
    (rs : List RadioComponent) (hN : rs.length < B) (hN31 : rs.length < 2 ^ 31)
    (init : List RadioComponent) (last : RadioComponent) (h2 : 1 ≤ init.length)
    (h31 : init.length + 1 < 2 ^ 31) :
    (∃ s, (Scheme.new schemeName B).addAll (withKeys 0 rs) = some s
      ∧ s.components = rs
      ∧ s.componentTable.visited = s.components
      ∧ s.displayComponents.2 = s.displayConnectionScheme)
    ∧ (∃ s, (Scheme.new schemeName (init.length + 1)).addAll (withKeys 0 (init ++ [last]))
          = some s
      ∧ s.components = init ++ [last]
      ∧ s.componentTable.visited = last :: init
      ∧ ((init ++ [last]).Nodup → s.componentTable.visited ≠ s.components)) := by
  constructor
  · obtain ⟨h1, hall, hs⟩ := Scheme.addAll_spec (withKeys 0 rs) (Scheme.new schemeName B)
      (HashTable.new_wf B (by omega))
    obtain ⟨h1', hall', -, -, hvis⟩ := HashTable.visited_below_size B rs hN hN31
    have he : h1 = h1' := Option.some.inj (hall.symm.trans hall')
    subst he
    refine ⟨_, hs, by simp [Scheme.new, withKeys_snd], by simp [Scheme.new, withKeys_snd, hvis], ?_⟩
    simp [Scheme.displayComponents, Scheme.displayConnectionScheme, HashTable.output,
      Scheme.new, withKeys_snd, hvis, RadioComponent.getDetails]
  · obtain ⟨h1, hall, hs⟩ := Scheme.addAll_spec (withKeys 0 (init ++ [last]))
      (Scheme.new schemeName (init.length + 1)) (HashTable.new_wf _ (by omega))
    obtain ⟨h1', hall', hvis⟩ := HashTable.visited_at_size init last h31
    have he : h1 = h1' := Option.some.inj (hall.symm.trans hall')
    subst he
    refine ⟨_, hs, by simp [Scheme.new, withKeys_snd], hvis, ?_⟩
    intro hnd heq
    have heq' : last :: init = init ++ [last] := by
      simpa [Scheme.new, withKeys_snd, hvis] using heq
    cases init with
    | nil => simp at h2
    | cons a t =>
      have ha : last = a := by
        simp only [List.cons_append] at heq'
        exact (List.cons.inj heq').1
      subst ha
      simp at hnd

/-- Witness for C16: two records into 10 buckets, and two records into 2
buckets. -/
theorem store_order_vs_insertion_order_witness :
    ([sampleR1, sampleR2].length < 10 ∧ [sampleR1, sampleR2].length < 2 ^ 31
      ∧ 1 ≤ [sampleR1].length ∧ [sampleR1].length + 1 < 2 ^ 31
      ∧ ([sampleR1] ++ [sampleR2]).Nodup)
    ∧ (∃ s, (Scheme.new "Моя электронная схема" 10).addAll (withKeys 0 [sampleR1, sampleR2])
          = some s
      ∧ s.components = [sampleR1, sampleR2]
      ∧ s.componentTable.visited = s.components
      ∧ s.displayComponents.2 = s.displayConnectionScheme)
    ∧ (∃ s, (Scheme.new "Моя электронная схема" ([sampleR1].length + 1)).addAll
          (withKeys 0 ([sampleR1] ++ [sampleR2])) = some s
      ∧ s.components = [sampleR1] ++ [sampleR2]
      ∧ s.componentTable.visited = sampleR2 :: [sampleR1]
      ∧ (([sampleR1] ++ [sampleR2]).Nodup → s.componentTable.visited ≠ s.components)) :=
  ⟨⟨by decide, by norm_num, by decide, by norm_num,
    by simp [sampleR1, sampleR2, Resistor]⟩,
   store_order_vs_insertion_order "Моя электронная схема" 10 [sampleR1, sampleR2]
     (by decide) (by norm_num) [sampleR1] sampleR2 (by decide) (by norm_num)⟩

/-- Counterexample for C17: in double arithmetic the result for the scheme whose
only component has the failure rate entered as 0.1 is 0.09999999999999998
(900719925474099 / 2^53), not the stored rate 0.1 (3602879701896397 / 2^55): the
value returned after the first component is added is not always its failure
rate. -/
theorem parallel_equals_rate_counterexample :
    (¬ ∀ (s : Scheme) (c : RadioComponent), s.components = [] →
        0 ≤ c.failureRate → c.failureRate ≤ 1 →
        Scheme.calculateReliabilityParallel64 { s with components := s.components ++ [c] }
          = fl64 c.failureRate)
    ∧ myScheme.addComponent 1 sampleR1 = some sampleTenth
    ∧ sampleR1.failureRate = 1 / 10
    ∧ fl64 sampleR1.failureRate = some (3602879701896397 / 36028797018963968)
    ∧ sampleTenth.calculateReliabilityParallel64
        = some (900719925474099 / 9007199254740992) := by
  have h1 : fl64 sampleR1.failureRate = some (3602879701896397 / 36028797018963968) := by
    decide!
  have h2 : sampleTenth.calculateReliabilityParallel64
      = some (900719925474099 / 9007199254740992) := by decide!
  refine ⟨?_, by decide!, rfl, h1, h2⟩
  intro h
  have h3 := h myScheme sampleR1 rfl (by decide!) (by decide!)
  have h4 : Scheme.calculateReliabilityParallel64
      { myScheme with components := myScheme.components ++ [sampleR1] }
        = sampleTenth.calculateReliabilityParallel64 := rfl
  rw [h4, h1, h2] at h3
  exact absurd h3 (by decide!)

/-- C17 (amended): adding a component whose failure rate lies in [0,1] to a scheme
whose failure rates all lie in [0,1] succeeds and does not lower
`calculateReliabilityParallel`, in exact arithmetic, where the new result is
1 - (1 - old) * (1 - rate), and in double arithmetic, where both results are
finite doubles in [0,1]. For a single component the result is 1 - (1 - rate): the
rate itself in exact arithmetic, and in double arithmetic the rounding of
1 - (1 - rate) with the inner difference and the rate rounded first. -/
theorem parallel_monotone_under_add (s : Scheme) (hwf : s.componentTable.WF) (key : Int)
    (c : RadioComponent)
    (hs : ∀ x ∈ s.components, 0 ≤ x.failureRate ∧ x.failureRate ≤ 1)
    (hc : 0 ≤ c.failureRate ∧ c.failureRate ≤ 1) :
    ∃ s1, s.addComponent key c = some s1
      ∧ s1.components = s.components ++ [c]
      ∧ s1.calculateReliabilityParallel
          = 1 - (1 - s.calculateReliabilityParallel) * (1 - c.failureRate)
      ∧ s.calculateReliabilityParallel ≤ s1.calculateReliabilityParallel
      ∧ (∃ a b : ℚ, s.calculateReliabilityParallel64 = some a
          ∧ s1.calculateReliabilityParallel64 = some b ∧ 0 ≤ a ∧ a ≤ b ∧ b ≤ 1)
      ∧ Scheme.calculateReliabilityParallel { s with components := [c] } = c.failureRate
      ∧ Scheme.calculateReliabilityParallel64 { s with components := [c] }
          = some (roundPos (1 - roundPos (1 - roundPos c.failureRate))) := by
  obtain ⟨t, -, hadd⟩ := s.addComponent_spec hwf key c
  have hrec := parallel_append s
    { name := s.name, componentTable := t, components := s.components ++ [c] } c rfl
  have hp := prod_mem_unit (s.components.map (fun x => 1 - x.failureRate)) (by
    intro y hy
    obtain ⟨x, hx, rfl⟩ := List.mem_map.mp hy
    have := hs x hx
    constructor <;> linarith [this.1, this.2])
  have hpar := parallel_eq_prod s
  refine ⟨_, hadd, rfl, hrec, ?_, parallel64_monotone s _ c rfl hs hc, ?_,
    parallel64_single s c hc⟩
  · rw [hrec]
    have h1 : 0 ≤ 1 - s.calculateReliabilityParallel := by rw [hpar]; linarith [hp.1]
    nlinarith [mul_nonneg h1 hc.1]
  · simp [Scheme.calculateReliabilityParallel]

/-- Witness for C17 (amended): the first sample resistor added once more, under
key 3, to the sample scheme of two resistors. -/
theorem parallel_monotone_under_add_witness :
    (sampleScheme.componentTable.WF
      ∧ (∀ x ∈ sampleScheme.components, 0 ≤ x.failureRate ∧ x.failureRate ≤ 1)
      ∧ (0 ≤ sampleR1.failureRate ∧ sampleR1.failureRate ≤ 1))
    ∧ ∃ s1, sampleScheme.addComponent 3 sampleR1 = some s1
      ∧ s1.components = sampleScheme.components ++ [sampleR1]
      ∧ s1.calculateReliabilityParallel
          = 1 - (1 - sampleScheme.calculateReliabilityParallel) * (1 - sampleR1.failureRate)
      ∧ sampleScheme.calculateReliabilityParallel ≤ s1.calculateReliabilityParallel
      ∧ (∃ a b : ℚ, sampleScheme.calculateReliabilityParallel64 = some a
          ∧ s1.calculateReliabilityParallel64 = some b ∧ 0 ≤ a ∧ a ≤ b ∧ b ≤ 1)
      ∧ Scheme.calculateReliabilityParallel { sampleScheme with components := [sampleR1] }
          = sampleR1.failureRate
      ∧ Scheme.calculateReliabilityParallel64 { sampleScheme with components := [sampleR1] }
          = some (roundPos (1 - roundPos (1 - roundPos sampleR1.failureRate))) :=
  ⟨⟨by simp [HashTable.WF, sampleScheme], by decide!, by decide!⟩,
   parallel_monotone_under_add sampleScheme (by simp [HashTable.WF, sampleScheme]) 3 sampleR1
     (by decide!) (by decide!)⟩

/-- Counterexample for C18: in double arithmetic, for the scheme whose only
component has failure rate 3, the total failure rate is 3 and choice 1 prints the
density of failure 2.0000000000000004 (4503599627370497 / 2^51), not 3 - 1. -/
theorem series_density_counterexample :
    (¬ ∀ (s : Scheme) (S : ℚ), s.calculateReliabilitySequential64 = some S → S ≠ 0 →
        (s.calculateAndDisplayReliability64 1).2[3]?
          = some (Line.densityOfFailure (some (S - 1))))
    ∧ sampleThree.calculateReliabilitySequential64 = some 3
    ∧ (sampleThree.calculateAndDisplayReliability64 1).2.take 4
        = [Line.prompt,
           Line.sequentialReliability (some (6004799503160661 / 18014398509481984)),
           Line.failureProbability (some (3002399751580331 / 4503599627370496)),
           Line.densityOfFailure (some (4503599627370497 / 2251799813685248))] := by
  have h1 : sampleThree.calculateReliabilitySequential64 = some 3 := by decide!
  refine ⟨?_, h1, by decide!⟩
  intro h
  have h2 := h sampleThree 3 h1 (by norm_num)
  have h3 : (sampleThree.calculateAndDisplayReliability64 1).2[3]?
      = some (Line.densityOfFailure (some (4503599627370497 / 2251799813685248))) := by
    decide!
  rw [h3] at h2
  exact absurd h2 (by decide!)

/-- C18 (amended): with choice 1 and a total failure rate `S` that is not 0, the
reliability printed is `1 / S`, the failure probability is `1 - 1 / S` and the
density of failure is their quotient. In exact arithmetic the density is `S - 1`
and the failure probability is negative when `0 < S < 1`. In double arithmetic,
each operation rounded, the failure probability is negative too when the sum is a
double `S` with `0 < S < 1`, as far as it is finite. -/
theorem series_failure_probability_and_density (s : Scheme)
    (hS : s.calculateReliabilitySequential ≠ 0) :
    (s.calculateAndDisplayReliability 1).2.take 4
      = [Line.prompt,
         Line.sequentialReliability (some (1 / s.calculateReliabilitySequential)),
         Line.failureProbability (some (1 - 1 / s.calculateReliabilitySequential)),
         Line.densityOfFailure (some (s.calculateReliabilitySequential - 1))]
    ∧ (0 < s.calculateReliabilitySequential → s.calculateReliabilitySequential < 1 →
        1 - 1 / s.calculateReliabilitySequential < 0)
    ∧ (∀ S : ℚ, s.calculateReliabilitySequential64 = some S →
        (s.calculateAndDisplayReliability64 1).2.take 4
          = [Line.prompt,
             Line.sequentialReliability (F64.div (some 1) (some S)),
             Line.failureProbability (F64.sub (some 1) (F64.div (some 1) (some S))),
             Line.densityOfFailure
               (F64.div (F64.sub (some 1) (F64.div (some 1) (some S)))
                 (F64.div (some 1) (some S)))]
        ∧ (0 < S → S < 1 → ∀ v : ℚ,
            F64.sub (some 1) (F64.div (some 1) (some S)) = some v → v < 0)) := by
  refine ⟨?_, ?_, ?_⟩
  · have hdiv : Val.div (some 1) (some s.calculateReliabilitySequential)
        = some (1 / s.calculateReliabilitySequential) := by
      simp [Val.div, hS]
    have hr : (1 / s.calculateReliabilitySequential) ≠ 0 := one_div_ne_zero hS
    have hden : (1 - 1 / s.calculateReliabilitySequential) / (1 / s.calculateReliabilitySequential)
        = s.calculateReliabilitySequential - 1 := by
      field_simp
    rw [Scheme.run_series, hdiv]
    simp only [Scheme.derivedMetrics, Val.sub, Val.div, if_neg hr, hden, List.take_succ_cons,
      List.take_zero]
  · intro h0 h1
    have : 1 < 1 / s.calculateReliabilitySequential := by
      rw [lt_div_iff₀ h0]
      linarith
    linarith
  · intro S h64
    constructor
    · simp only [Scheme.calculateAndDisplayReliability64, if_true, h64, Scheme.derivedMetrics64,
        List.cons_append, List.nil_append, List.take_succ_cons, List.take_zero]
    · intro h0 h1 v hv
      unfold Scheme.calculateReliabilitySequential64 at h64
      rcases sequential64_rounded s.components (some 0) S h64 with hz | ⟨x, hx⟩
      · have : (0 : ℚ) = S := Option.some.inj hz
        linarith
      · exact series64_failureProbability_neg S x hx h0 h1 v hv

/-- Witness for C18 (amended): the sample scheme, whose total failure rate is 3/10
in exact arithmetic and 0.30000000000000004 in double arithmetic. -/
theorem series_failure_probability_and_density_witness :
    (sampleScheme.calculateReliabilitySequential ≠ 0
      ∧ 0 < sampleScheme.calculateReliabilitySequential
      ∧ sampleScheme.calculateReliabilitySequential < 1
      ∧ sampleScheme.calculateReliabilitySequential64
          = some (1351079888211149 / 4503599627370496)
      ∧ F64.sub (some 1) (F64.div (some 1) (some (1351079888211149 / 4503599627370496)))
          = some (-2627099782632789 / 1125899906842624))
    ∧ ((sampleScheme.calculateAndDisplayReliability 1).2.take 4
        = [Line.prompt,
           Line.sequentialReliability (some (1 / sampleScheme.calculateReliabilitySequential)),
           Line.failureProbability (some (1 - 1 / sampleScheme.calculateReliabilitySequential)),
           Line.densityOfFailure (some (sampleScheme.calculateReliabilitySequential - 1))]
      ∧ (0 < sampleScheme.calculateReliabilitySequential →
          sampleScheme.calculateReliabilitySequential < 1 →
          1 - 1 / sampleScheme.calculateReliabilitySequential < 0)
      ∧ (∀ S : ℚ, sampleScheme.calculateReliabilitySequential64 = some S →
          (sampleScheme.calculateAndDisplayReliability64 1).2.take 4
            = [Line.prompt,
               Line.sequentialReliability (F64.div (some 1) (some S)),
               Line.failureProbability (F64.sub (some 1) (F64.div (some 1) (some S))),
               Line.densityOfFailure
                 (F64.div (F64.sub (some 1) (F64.div (some 1) (some S)))
                   (F64.div (some 1) (some S)))]
          ∧ (0 < S → S < 1 → ∀ v : ℚ,
              F64.sub (some 1) (F64.div (some 1) (some S)) = some v → v < 0))) :=
  ⟨⟨by rw [sampleScheme_sequential]; norm_num, by rw [sampleScheme_sequential]; norm_num,
    by rw [sampleScheme_sequential]; norm_num, by decide!, by decide!⟩,
   series_failure_probability_and_density sampleScheme
     (by rw [sampleScheme_sequential]; norm_num)⟩

end Meow
